import Mathlib

/-!
Verification of the aicm resolution & merge engine.

This file gives a shallow embedding of the core pure logic of the aicm
CLI (preset namespace derivation, preset-cycle detection, asset-reference
rewriting, command collision handling, rule install paths, hook-file
deduplication, MCP-server merging, override application, and hooks-config
rewriting), translated from `src/utils/config.ts`, `src/utils/hooks.ts`
and `src/commands/install.ts`, and proves the specified properties about
those definitions.

Strings are modelled by Lean `String`; all character-level operations are
implemented over `List Char` so that every definition evaluates inside the
kernel.  The host platform is modelled as POSIX, so the host path
separator is the forward slash.
-/

namespace Aicm

/-! ### Generic association-list helpers

JavaScript `Map` objects preserve insertion order; `Map.set` on an
existing key updates the value in place, and `Map.prototype.values`
iterates in insertion order.  An association list with `jsMapSet` models
exactly that behaviour. -/

/-- First-match lookup in an association list (JS `Map.get`). -/
def lookupAssoc {β : Type} (m : List (String × β)) (k : String) : Option β :=
  match m with
  | [] => none
  | e :: rest => if e.1 = k then some e.2 else lookupAssoc rest k

/-- JS `Map.set`: update in place if the key exists, else append. -/
def jsMapSet {β : Type} (m : List (String × β)) (k : String) (v : β) :
    List (String × β) :=
  if m.any (fun e => e.1 = k) then
    m.map (fun e => if e.1 = k then (k, v) else e)
  else m ++ [(k, v)]

/-- JS `Map.delete`: remove every entry with the given key. -/
def removeAssoc {β : Type} (m : List (String × β)) (k : String) :
    List (String × β) :=
  m.filter (fun e => e.1 ≠ k)

/-- The last element of a list satisfying a predicate, if any. -/
def lastWith {α : Type} (p : α → Bool) : List α → Option α
  | [] => none
  | x :: xs =>
    match lastWith p xs with
    | some y => some y
    | none => if p x then some x else none

/-- The last element of a list, or a default. -/
def lastStrD (dflt : String) : List String → String
  | [] => dflt
  | p :: ps => lastStrD p ps

/-! ### Character-level string operations -/

/-- Boolean test that the first list is a prefix of the second. -/
def charsIsPre : List Char → List Char → Bool
  | [], _ => true
  | _ :: _, [] => false
  | c :: cs, d :: ds => c = d && charsIsPre cs ds

/-- JS `String.prototype.startsWith`. -/
def jsStartsWith (s pre : String) : Bool :=
  charsIsPre pre.data s.data

/-- Worker for `jsSplit`, accumulating the current segment in reverse. -/
def jsSplitAux (sep : Char) : List Char → List Char → List (List Char)
  | acc, [] => [acc.reverse]
  | acc, c :: cs =>
    if c = sep then acc.reverse :: jsSplitAux sep [] cs
    else jsSplitAux sep (c :: acc) cs

/-- JS `String.prototype.split` with a single-character separator
(`"".split(sep)` gives `[""]`, exactly as in JS). -/
def jsSplit (sep : Char) (s : String) : List String :=
  (jsSplitAux sep [] s.data).map (fun l => String.mk l)

/-- JS `String.prototype.repeat`. -/
def repeatString (s : String) (n : Nat) : String :=
  String.mk (List.flatten (List.replicate n s.data))

/-- The host path separator (`path.sep`); the host is modelled as POSIX. -/
def pathSep : Char := '/'

/-- Lexicographic comparison of character lists by code point, the order
used by the default JS `Array.prototype.sort` on strings. -/
def charsLe : List Char → List Char → Bool
  | [], _ => true
  | _ :: _, [] => false
  | a :: as, b :: bs => if a = b then charsLe as bs else decide (a.toNat < b.toNat)

/-- String comparison by code point. -/
def strLe (a b : String) : Bool := charsLe a.data b.data

/-- Insert a string into an already sorted list. -/
def insertSorted (x : String) : List String → List String
  | [] => [x]
  | y :: ys => if strLe x y then x :: y :: ys else y :: insertSorted x ys

/-- JS `Array.prototype.sort` on strings (insertion sort; only the sorted
result matters). -/
def sortStrings : List String → List String
  | [] => []
  | x :: xs => insertSorted x (sortStrings xs)

/-- Normalisation pass of `path.posix.join`: drop `.` segments and let
`..` segments consume the preceding real segment (kept when there is
nothing left to consume).  The first argument is the processed stack in
reverse order. -/
def posixNormSegsAux (stack : List String) : List String → List String
  | [] => stack.reverse
  | s :: rest =>
    if s = "." then posixNormSegsAux stack rest
    else if s = ".." then
      match stack with
      | [] => posixNormSegsAux [".."] rest
      | t :: st =>
        if t = ".." then posixNormSegsAux (".." :: t :: st) rest
        else posixNormSegsAux st rest
    else posixNormSegsAux (s :: stack) rest

/-- `path.posix.join` on slash-free segments: empty arguments are
ignored, the result is normalised, and an empty result is `"."`. -/
def posixJoin (parts : List String) : String :=
  let segs := parts.filter (fun p => p ≠ "")
  let norm := posixNormSegsAux [] segs
  if norm = [] then "." else String.intercalate "/" norm

/-! ### Data model (`src/utils/config.ts`, `src/utils/hooks.ts`) -/

/-- Provenance of a loaded file (`source: "local" | "preset"`). -/
inductive FileSource where
  | localSrc
  | presetSrc
deriving DecidableEq, Repr

/-- A rule/command record (`ManagedFile` in `config.ts`). -/
structure ManagedFile where
  name : String
  content : String
  sourcePath : String
  source : FileSource
  presetName : Option String
deriving DecidableEq, Repr

/-- `RuleFile` is an alias of `ManagedFile` in the source. -/
abbrev RuleFile := ManagedFile

/-- `CommandFile` is an alias of `ManagedFile` in the source. -/
abbrev CommandFile := ManagedFile

/-- A hook script file (`HookFile` in `hooks.ts`); `content` models the
byte `Buffer`. -/
structure HookFile where
  name : String
  basename : String
  content : List Nat
  sourcePath : String
  source : FileSource
  presetName : Option String
deriving DecidableEq, Repr

/-! ### Namespace assigner (`extractNamespaceFromPresetPath`) -/

/-- Translation of `extractNamespaceFromPresetPath` from
`src/utils/config.ts`: scoped package names (leading `@`) split on `/`
verbatim; any other reference splits on the host path separator and drops
empty, `.` and `..` segments. -/
def extractNamespaceFromPresetPath (presetPath : String) : List String :=
  if jsStartsWith presetPath "@" then
    jsSplit '/' presetPath
  else
    (jsSplit pathSep presetPath).filter
      (fun part => part ≠ "" && part ≠ "." && part ≠ "..")

/-! ### Preset resolver with cycle detection

Modelled from the spec: the recursive nested-preset resolution with
cycle detection is not present in the source snapshot (only its
end-to-end tests are), so it is modelled from the spec's words:
"Recursively resolve nested presets declared inside this preset's own
config, adding this config's absolute path to the visited-set before
descending; fails `CircularPresetDependency` (naming the full cycle) if a
path reappears in the active chain.  Re-visiting the same preset via a
different chain is permitted."  Resolved absolute config paths are
abstracted as values of a type with decidable equality; the preset
dependency graph maps each config to the list of presets it declares, in
declaration order.  A fuel parameter bounds the recursion depth; every
theorem supplies sufficient fuel. -/

/-- Failure modes of the modelled preset resolution. -/
inductive PresetResolveError (α : Type) where
  | circularPresetDependency (chain : List α)
  | outOfFuel
deriving DecidableEq, Repr

/-- Modelled from the spec: depth-first resolution of the preset
dependency graph `g` starting at `ref`, with `chain` the active chain of
already-entered configs.  A reference already in the active chain fails
`circularPresetDependency` naming the full chain; otherwise the config's
own presets are resolved left to right (fail-fast) with the current
config appended to the chain. -/
def resolvePresetRefs {α : Type} [DecidableEq α] (g : α → List α) :
    Nat → List α → α → Except (PresetResolveError α) Unit
  | fuel, chain, ref =>
    if ref ∈ chain then
      .error (.circularPresetDependency (chain ++ [ref]))
    else
      match fuel with
      | 0 => .error .outOfFuel
      | n + 1 =>
        (g ref).foldl
          (fun acc r =>
            match acc with
            | .error e => .error e
            | .ok _ => resolvePresetRefs g n (chain ++ [ref]) r)
          (.ok ())

/-- A chain of depth `n` feeding into a two-cycle: vertices `0 … n-1`
form the entry chain, vertex `n` is preset A and vertex `n+1` is preset
B, with A referencing B and B referencing A. -/
def cycleGraph (n : Nat) : Nat → List Nat := fun v =>
  if v < n then [v + 1]
  else if v = n then [n + 1]
  else if v = n + 1 then [n]
  else []

/-- A diamond: config 0 references presets 1 and 2, both of which
reference preset 3 — the same preset reached via two different
(non-cyclic) chains. -/
def diamondGraph : Nat → List Nat := fun v =>
  if v = 0 then [1, 2]
  else if v = 1 ∨ v = 2 then [3]
  else []

/-! ### Asset-reference rewriter (`rewriteAssetReferences`, install.ts)

The source rewrites with `content.replace(/\.\.[\\/]assets[\\/]/g,
targetPath)`: a left-to-right scan replacing every non-overlapping
occurrence of a ten-character token `..<sep>assets<sep>` (each `<sep>`
independently `/` or `\`), without rescanning the replacement text. -/

/-- The four concrete token shapes matched by the regex
`\.\.[\\/]assets[\\/]`. -/
def assetTokenVariants : List (List Char) :=
  ["../assets/", "..\\assets/", "../assets\\", "..\\assets\\"].map String.data

/-- Whether an asset token starts at the head of the character list. -/
def assetTokenAt (l : List Char) : Bool :=
  assetTokenVariants.any (fun t => charsIsPre t l)

/-- Fuel-indexed left-to-right global replacement of asset tokens by
`target`; the fuel only needs to cover the input length. -/
def rwAssetsFuel (target : List Char) : Nat → List Char → List Char
  | 0, l => l
  | _ + 1, [] => []
  | n + 1, c :: cs =>
    if assetTokenAt (c :: cs) then target ++ rwAssetsFuel target n (cs.drop 9)
    else c :: rwAssetsFuel target n cs

/-- The `assetBasePath` computed by `rewriteAssetReferences`: preset
files get the preset namespace inside the managed assets directory. -/
def assetBasePath (presetName : Option String) : String :=
  match presetName with
  | some pn =>
    posixJoin ("assets" :: "aicm" :: extractNamespaceFromPresetPath pn) ++ "/"
  | none => "assets/aicm/"

/-- The `targetPath` computed by `rewriteAssetReferences`: up-levels to
the `.cursor` directory followed by the asset base path. -/
def assetTargetPath (presetName : Option String) (fileInstallDepth : Nat) :
    String :=
  repeatString "../" fileInstallDepth ++ assetBasePath presetName

/-- Translation of `rewriteAssetReferences` from
`src/commands/install.ts`: computes the target path from the install
depth and (for preset files) the preset namespace, then replaces every
`../assets/`-shaped token in the content by that target path. -/
def rewriteAssetReferences (content : String) (presetName : Option String)
    (fileInstallDepth : Nat) : String :=
  String.mk
    (rwAssetsFuel (assetTargetPath presetName fileInstallDepth).data
      content.data.length content.data)

/-- Whether the content contains an asset token anywhere. -/
def hasAssetToken : List Char → Bool
  | [] => false
  | c :: cs => assetTokenAt (c :: cs) || hasAssetToken cs

/-! ### Command collision warnings and dedup (`install.ts`) -/

/-- A collision diagnostic: every contributing preset (sorted, as the
source prints `Array.from(presets).sort()`) and the preset whose
definition is used. -/
structure CollisionWarning where
  commandName : String
  presets : List String
  chosen : String
deriving DecidableEq, Repr

/-- Worker of `warnPresetCommandCollisions`: one pass over the commands
building, per name, the insertion-ordered set of contributing preset
names and the most recent one.  Local commands (no preset name) are
skipped, exactly as in the source. -/
def collectCollisionsGo (acc : List (String × (List String × String))) :
    List CommandFile → List (String × (List String × String))
  | [] => acc
  | c :: cs =>
    match c.presetName with
    | none => collectCollisionsGo acc cs
    | some pn =>
      match lookupAssoc acc c.name with
      | some e =>
        collectCollisionsGo
          (jsMapSet acc c.name ((if pn ∈ e.1 then e.1 else e.1 ++ [pn]), pn)) cs
      | none => collectCollisionsGo (acc ++ [(c.name, ([pn], pn))]) cs

/-- Translation of `warnPresetCommandCollisions` from
`src/commands/install.ts`: for every command name provided by more than
one distinct preset, emit a warning listing the sorted contributing
presets and naming the last one. -/
def warnPresetCommandCollisions (commands : List CommandFile) :
    List CollisionWarning :=
  (collectCollisionsGo [] commands).filterMap (fun e =>
    if 1 < e.2.1.length then
      some ⟨e.1, sortStrings e.2.1, e.2.2⟩
    else none)

/-- Translation of `dedupeCommandsForInstall` from
`src/commands/install.ts`: keep one command per name, last one wins,
in first-occurrence order. -/
def dedupeCommandsForInstall (commands : List CommandFile) :
    List CommandFile :=
  (commands.foldl (fun m c => jsMapSet m c.name c) []).map (fun e => e.2)

/-- Specification helper: the preset names contributed to command name
`n`, in occurrence order (with multiplicity). -/
def contribPresetList (commands : List CommandFile) (n : String) :
    List String :=
  commands.filterMap (fun c => if c.name = n then c.presetName else none)

/-- Specification helper: JS `Set.add` on an insertion-ordered list. -/
def distinctInsert (d : List String) (p : String) : List String :=
  if p ∈ d then d else d ++ [p]

/-- Specification helper: the distinct elements of a list in
first-occurrence order (the contents of a JS `Set`). -/
def distinctPresets (ps : List String) : List String :=
  ps.foldl distinctInsert []

/-- Specification helper: evolution of one name's entry in the collision
accumulator when a contributing preset name arrives. -/
def collisionEntryStep (e : Option (List String × String)) (p : String) :
    Option (List String × String) :=
  match e with
  | some d => some (distinctInsert d.1 p, p)
  | none => some ([p], p)

/-! ### Rule install paths (`writeCursorRules`, install.ts) -/

/-- `rule.name.split(path.sep).filter(Boolean)` from `writeCursorRules`. -/
def ruleNameParts (name : String) : List String :=
  (jsSplit pathSep name).filter (fun p => p ≠ "")

/-- Install path of a rule below the target rules directory, as the list
of path segments produced by `writeCursorRules`: preset rules are placed
under their preset's namespace directories, local rules directly under
the rules directory.  `path.join` normalisation of `.` and `..` segments
is applied. -/
def ruleInstallSegments (rule : RuleFile) : List String :=
  match rule.presetName with
  | some pn =>
    posixNormSegsAux [] (extractNamespaceFromPresetPath pn ++ ruleNameParts rule.name)
  | none => posixNormSegsAux [] (ruleNameParts rule.name)

/-! ### Hook-file dedup (`dedupeHookFiles`, hooks.ts) -/

/-- A hook-file content-collision warning naming both sources. -/
structure HookFileWarning where
  name : String
  firstSource : String
  secondSource : String
deriving DecidableEq, Repr

/-- The source description used in the warning: `preset "<name>"` for
preset files, otherwise the `source` string. -/
def hookSourceInfo (f : HookFile) : String :=
  match f.presetName with
  | some pn => "preset \"" ++ pn ++ "\""
  | none =>
    match f.source with
    | .localSrc => "local"
    | .presetSrc => "preset"

/-- Worker of `dedupeHookFiles`: fold over the files keyed by namespaced
name; on a key collision compare the content hashes, warn when they
differ, and let the last writer win. -/
def dedupeHookFilesGo (hash : List Nat → List Nat)
    (m : List (String × HookFile)) (ws : List HookFileWarning) :
    List HookFile → List HookFile × List HookFileWarning
  | [] => (m.map (fun e => e.2), ws)
  | f :: fs =>
    match lookupAssoc m f.name with
    | some ex =>
      dedupeHookFilesGo hash (jsMapSet m f.name f)
        (if hash ex.content ≠ hash f.content then
          ws ++ [⟨f.name, hookSourceInfo ex, hookSourceInfo f⟩]
        else ws) fs
    | none => dedupeHookFilesGo hash (jsMapSet m f.name f) ws fs

/-- Translation of `dedupeHookFiles` from `src/utils/hooks.ts`,
parametrised by the content-hash function (`md5` in the source). -/
def dedupeHookFiles (hash : List Nat → List Nat) (hookFiles : List HookFile) :
    List HookFile × List HookFileWarning :=
  dedupeHookFilesGo hash [] [] hookFiles

/-- Specification helper: the warnings generated for one name by the
successive hash comparisons of `dedupeHookFiles`, where the first
argument is the entry currently held for that name.  Each occurrence is
compared against the immediately preceding one, because the last writer
always wins. -/
def hookWarnSeq (hash : List Nat → List Nat) :
    Option HookFile → List HookFile → List HookFileWarning
  | _, [] => []
  | none, f :: fs => hookWarnSeq hash (some f) fs
  | some ex, f :: fs =>
    (if hash ex.content ≠ hash f.content then
      [⟨f.name, hookSourceInfo ex, hookSourceInfo f⟩]
    else []) ++ hookWarnSeq hash (some f) fs

/-! ### MCP-server merge (`mergePresetMcpServers`, config.ts) -/

/-- An MCP server entry: either the cancellation marker `false` or a
server definition (whose payload is opaque to the merge). -/
inductive MCPServer where
  | falseVal
  | server (payload : String)
deriving DecidableEq, Repr

/-- Translation of `mergePresetMcpServers` from `src/utils/config.ts`:
for each preset entry, a `false` marker in the accumulated map deletes
the key, an existing non-`false` entry is kept, and an absent key is
added from the preset. -/
def mergePresetMcpServers
    (configMcpServers presetMcpServers : List (String × MCPServer)) :
    List (String × MCPServer) :=
  presetMcpServers.foldl
    (fun m e =>
      if lookupAssoc m e.1 = some .falseVal then removeAssoc m e.1
      else if (lookupAssoc m e.1).isSome then m
      else m ++ [e])
    configMcpServers

/-- The iterated merge performed by `loadAllRules`: starting from the
local config's servers, merge each preset's servers in declaration
order. -/
def mergeAllPresetMcpServers (configServers : List (String × MCPServer))
    (presetServerMaps : List (List (String × MCPServer))) :
    List (String × MCPServer) :=
  presetServerMaps.foldl mergePresetMcpServers configServers

/-! ### Override resolver (`applyOverrides`, config.ts) -/

/-- An override directive: `false` (disable) or a local file path. -/
inductive OverrideValue where
  | disable
  | filePath (p : String)
deriving DecidableEq, Repr

/-- Failure modes of `applyOverrides`. -/
inductive OverrideError where
  | missingEntry (name : String)
  | overrideFileNotFound (p : String)
deriving DecidableEq, Repr

/-- `path.resolve(cwd, p)` on a POSIX host (no further normalisation is
needed by the claims). -/
def resolvePath (cwd p : String) : String :=
  if jsStartsWith p "/" then p else cwd ++ "/" ++ p

/-- Worker of `applyOverrides`: apply the directives in order to the
name-keyed map; `disable` deletes the entry, a file path replaces the
entry by a freshly-built local record whose content is read from the
filesystem (modelled by `fsRead`). -/
def applyOverridesLoop (fsRead : String → Option String) (cwd : String) :
    List (String × OverrideValue) → List (String × ManagedFile) →
    Except OverrideError (List (String × ManagedFile))
  | [], m => .ok m
  | ov :: rest, m =>
    match ov.2 with
    | .disable => applyOverridesLoop fsRead cwd rest (removeAssoc m ov.1)
    | .filePath p =>
      match fsRead (resolvePath cwd p) with
      | none => .error (.overrideFileNotFound p)
      | some content =>
        applyOverridesLoop fsRead cwd rest
          (jsMapSet m ov.1 ⟨ov.1, content, resolvePath cwd p, .localSrc, none⟩)

/-- Translation of `applyOverrides` from `src/utils/config.ts`:
first every override key is validated to name an existing file, then the
files are keyed by name and the directives are applied in order. -/
def applyOverrides (fsRead : String → Option String) (cwd : String)
    (files : List ManagedFile) (overrides : List (String × OverrideValue)) :
    Except OverrideError (List ManagedFile) :=
  match overrides.find? (fun ov => !files.any (fun f => f.name == ov.1)) with
  | some ov => .error (.missingEntry ov.1)
  | none =>
    (applyOverridesLoop fsRead cwd overrides
      (files.foldl (fun m f => jsMapSet m f.name f) [])).map
      (fun m => m.map (fun e => e.2))

/-! ### Hooks config rewrite (`rewriteHooksConfigForNamespace`, hooks.ts) -/

/-- The fixed set of lifecycle events (`HookType` in `hooks.ts`). -/
inductive HookType where
  | beforeShellExecution
  | beforeMCPExecution
  | afterShellExecution
  | afterMCPExecution
  | beforeReadFile
  | afterFileEdit
  | beforeSubmitPrompt
  | stop
deriving DecidableEq, Repr

/-- A single event binding (`{ command: string }`). -/
structure HookCommand where
  command : String
deriving DecidableEq, Repr

/-- The hook declaration file (`HooksJson`); `hooks` maps each event type
to its list of bindings when the key is present. -/
structure HooksJson where
  version : Int
  hooks : HookType → Option (List HookCommand)

/-- Lookup in the `sourcePathToFile` map of the source, which is built by
insertion so that a later file with the same source path overwrites an
earlier one: the last match wins. -/
def lookupLastHookFile : List HookFile → String → Option HookFile
  | [], _ => none
  | f :: fs, src =>
    match lookupLastHookFile fs src with
    | some r => some r
    | none => if f.sourcePath = src then some f else none

/-- Per-command step of `rewriteHooksConfigForNamespace`: a non-empty
`./`- or `../`-prefixed command is resolved against the config root and
replaced by the namespaced name of the matching loaded hook file, or
dropped (`none`) when no loaded file matches; every other command is
returned unchanged.  `resolve` models `path.resolve`. -/
def rewriteHookCommand (resolve : String → String → String)
    (hookFiles : List HookFile) (rootDir : String) (hc : HookCommand) :
    Option HookCommand :=
  if hc.command = "" then some hc
  else if jsStartsWith hc.command "./" || jsStartsWith hc.command "../" then
    match lookupLastHookFile hookFiles (resolve rootDir hc.command) with
    | some hf => some ⟨hf.name⟩
    | none => none
  else some hc

/-- Translation of `rewriteHooksConfigForNamespace` from
`src/utils/hooks.ts`: every present event list is rewritten command by
command, dropping the commands mapped to `null`. -/
def rewriteHooksConfigForNamespace (resolve : String → String → String)
    (hooksConfig : HooksJson) (hookFiles : List HookFile) (rootDir : String) :
    HooksJson :=
  { version := hooksConfig.version,
    hooks := fun t =>
      (hooksConfig.hooks t).map
        (fun cmds => cmds.filterMap (rewriteHookCommand resolve hookFiles rootDir)) }

/-! ## Association-list infrastructure lemmas -/

/-- The keys of an association list. -/
def assocKeys {β : Type} (m : List (String × β)) : List String :=
  m.map (fun e => e.1)

lemma lookupAssoc_cons {β : Type} (e : String × β) (m : List (String × β))
    (k : String) :
    lookupAssoc (e :: m) k = if e.1 = k then some e.2 else lookupAssoc m k := rfl

lemma lookupAssoc_append {β : Type} (a b : List (String × β)) (k : String) :
    lookupAssoc (a ++ b) k =
      match lookupAssoc a k with
      | some v => some v
      | none => lookupAssoc b k := by
  induction a with
  | nil => simp [lookupAssoc]
  | cons e a ih =>
    by_cases h : e.1 = k <;> simp [lookupAssoc_cons, h, ih]

lemma lookupAssoc_eq_none_of_not_any {β : Type} (m : List (String × β))
    (k : String) (h : m.any (fun e => e.1 = k) = false) :
    lookupAssoc m k = none := by
  induction m with
  | nil => rfl
  | cons e m ih =>
    simp only [List.any_cons, Bool.or_eq_false_iff, decide_eq_false_iff_not] at h
    simp [lookupAssoc_cons, h.1, ih h.2]


lemma lookupAssoc_map_update_self {β : Type} (k : String) (v : β) :
    ∀ (m : List (String × β)), m.any (fun e => e.1 = k) = true →
      lookupAssoc (m.map (fun e => if e.1 = k then (k, v) else e)) k = some v := by
  intro m
  induction m with
  | nil => intro h; simp at h
  | cons e m ih =>
    intro h
    by_cases he : e.1 = k
    · simp [lookupAssoc_cons, he]
    · simp only [List.any_cons, he, Bool.false_or, decide_eq_false_iff_not,
        not_false_eq_true, decide_eq_true_eq] at h
      have h' : m.any (fun e => e.1 = k) = true := by
        simpa using h
      simp [lookupAssoc_cons, he, ih h']

lemma lookupAssoc_jsMapSet_self {β : Type} (m : List (String × β))
    (k : String) (v : β) : lookupAssoc (jsMapSet m k v) k = some v := by
  unfold jsMapSet
  by_cases h : m.any (fun e => e.1 = k) = true
  · simp only [h, if_true]
    exact lookupAssoc_map_update_self k v m h
  · simp only [Bool.not_eq_true] at h
    rw [if_neg (by simp [h]), lookupAssoc_append,
      lookupAssoc_eq_none_of_not_any m k h]
    simp [lookupAssoc_cons, lookupAssoc]

lemma lookupAssoc_map_update_ne {β : Type} (m : List (String × β))
    (k : String) (v : β) (k' : String) (h : k' ≠ k) :
    lookupAssoc (m.map (fun e => if e.1 = k then (k, v) else e)) k' =
      lookupAssoc m k' := by
  induction m with
  | nil => rfl
  | cons e m ih =>
    by_cases he : e.1 = k
    · have hkk : ¬(k = k') := fun hk => h hk.symm
      have hek : ¬(e.1 = k') := by rw [he]; exact hkk
      simp [lookupAssoc_cons, he, hkk, hek, ih]
    · simp [lookupAssoc_cons, he, ih]

lemma lookupAssoc_jsMapSet_ne {β : Type} (m : List (String × β))
    (k : String) (v : β) (k' : String) (h : k' ≠ k) :
    lookupAssoc (jsMapSet m k v) k' = lookupAssoc m k' := by
  unfold jsMapSet
  by_cases ha : m.any (fun e => e.1 = k) = true
  · simp [ha, lookupAssoc_map_update_ne m k v k' h]
  · simp only [Bool.not_eq_true] at ha
    have hkk : ¬(k = k') := fun hk => h hk.symm
    rw [if_neg (by simp [ha]), lookupAssoc_append]
    simp only [lookupAssoc_cons, lookupAssoc, hkk, if_false]
    cases lookupAssoc m k' <;> rfl

lemma lookupAssoc_removeAssoc_self {β : Type} (m : List (String × β))
    (k : String) : lookupAssoc (removeAssoc m k) k = none := by
  induction m with
  | nil => rfl
  | cons e m ih =>
    by_cases he : e.1 = k
    · simpa [removeAssoc, he] using ih
    · simpa [removeAssoc, he, lookupAssoc_cons] using ih

lemma lookupAssoc_removeAssoc_ne {β : Type} (m : List (String × β))
    (k k' : String) (h : k' ≠ k) :
    lookupAssoc (removeAssoc m k) k' = lookupAssoc m k' := by
  induction m with
  | nil => rfl
  | cons e m ih =>
    by_cases he : e.1 = k
    · have hek : ¬(e.1 = k') := fun hk => h (hk.symm.trans he)
      have hdrop : removeAssoc (e :: m) k = removeAssoc m k := by
        simp [removeAssoc, he]
      rw [hdrop, ih, lookupAssoc_cons, if_neg hek]
    · have hkeep : removeAssoc (e :: m) k = e :: removeAssoc m k := by
        simp [removeAssoc, he]
      rw [hkeep, lookupAssoc_cons, lookupAssoc_cons]
      by_cases he' : e.1 = k' <;> simp [he', ih]

lemma lookupAssoc_mem {β : Type} (m : List (String × β)) (k : String) (v : β)
    (h : lookupAssoc m k = some v) : (k, v) ∈ m := by
  induction m with
  | nil => simp [lookupAssoc] at h
  | cons e m ih =>
    obtain ⟨a, b⟩ := e
    by_cases he : a = k
    · simp only [lookupAssoc_cons, he, if_true, Option.some.injEq] at h
      subst he
      subst h
      exact List.mem_cons_self _ _
    · simp only [lookupAssoc_cons, he, if_false] at h
      exact List.mem_cons_of_mem _ (ih h)

lemma assocKeys_jsMapSet {β : Type} (m : List (String × β)) (k : String)
    (v : β) :
    assocKeys (jsMapSet m k v) =
      if m.any (fun e => e.1 = k) then assocKeys m else assocKeys m ++ [k] := by
  unfold jsMapSet
  by_cases ha : m.any (fun e => e.1 = k) = true
  · simp only [ha, if_true]
    simp only [assocKeys, List.map_map]
    apply List.map_congr_left
    intro e _
    by_cases h : e.1 = k <;> simp [Function.comp, h]
  · simp only [Bool.not_eq_true] at ha
    simp [ha, assocKeys]

lemma not_mem_assocKeys_of_not_any {β : Type} (m : List (String × β))
    (k : String) (h : m.any (fun e => e.1 = k) = false) :
    k ∉ assocKeys m := by
  intro hk
  simp only [assocKeys, List.mem_map] at hk
  obtain ⟨e, he, hek⟩ := hk
  simp only [List.any_eq_false, decide_eq_true_eq] at h
  exact h e he hek

lemma assocKeys_nodup_jsMapSet {β : Type} (m : List (String × β)) (k : String)
    (v : β) (h : (assocKeys m).Nodup) : (assocKeys (jsMapSet m k v)).Nodup := by
  rw [assocKeys_jsMapSet]
  by_cases ha : m.any (fun e => e.1 = k) = true
  · simpa [ha]
  · simp only [Bool.not_eq_true] at ha
    have hk := not_mem_assocKeys_of_not_any m k ha
    rw [ha]
    simp only [Bool.false_eq_true, if_false]
    exact List.Nodup.append h (List.nodup_singleton k)
      (List.disjoint_singleton.mpr hk)

lemma mem_jsMapSet {β : Type} (m : List (String × β)) (k : String) (v : β)
    (e : String × β) (he : e ∈ jsMapSet m k v) :
    e ∈ m ∨ e = (k, v) := by
  unfold jsMapSet at he
  by_cases ha : m.any (fun e => e.1 = k) = true
  · simp only [ha, if_true, List.mem_map] at he
    obtain ⟨x, hx, hxe⟩ := he
    by_cases h : x.1 = k
    · right
      simp only [h, if_true] at hxe
      exact hxe.symm
    · left
      simp only [h, if_false] at hxe
      exact hxe ▸ hx
  · simp only [Bool.not_eq_true] at ha
    rw [if_neg (by simp [ha])] at he
    simpa using he

/-- Looking up the result of inserting every element of `xs` (keyed by
`keyOf`) gives the last inserted element with that key, falling back to
the initial map. -/
lemma lookupAssoc_foldIns {β : Type} (keyOf : β → String) :
    ∀ (xs : List β) (m : List (String × β)) (k : String),
      lookupAssoc (xs.foldl (fun m x => jsMapSet m (keyOf x) x) m) k =
        match lastWith (fun x => keyOf x = k) xs with
        | some x => some x
        | none => lookupAssoc m k := by
  intro xs
  induction xs with
  | nil => intro m k; rfl
  | cons x xs ih =>
    intro m k
    rw [List.foldl_cons, ih]
    show _ = (match lastWith (fun x => keyOf x = k) (x :: xs) with
      | some x => some x
      | none => lookupAssoc m k)
    rw [lastWith]
    cases hlast : lastWith (fun x => decide (keyOf x = k)) xs with
    | some y => simp
    | none =>
      by_cases hx : keyOf x = k
      · simp [hx, hx ▸ lookupAssoc_jsMapSet_self m (keyOf x) x]
      · simp [hx, lookupAssoc_jsMapSet_ne m (keyOf x) x k
          (fun h => hx h.symm)]

lemma foldIns_coherent {β : Type} (keyOf : β → String) :
    ∀ (xs : List β) (m : List (String × β)),
      (∀ e ∈ m, keyOf e.2 = e.1) →
      ∀ e ∈ xs.foldl (fun m x => jsMapSet m (keyOf x) x) m, keyOf e.2 = e.1 := by
  intro xs
  induction xs with
  | nil => intro m hm; exact hm
  | cons x xs ih =>
    intro m hm
    rw [List.foldl_cons]
    apply ih
    intro e he
    rcases mem_jsMapSet m (keyOf x) x e he with h | h
    · exact hm e h
    · rw [h]

lemma foldIns_keys_nodup {β : Type} (keyOf : β → String) :
    ∀ (xs : List β) (m : List (String × β)),
      (assocKeys m).Nodup →
      (assocKeys (xs.foldl (fun m x => jsMapSet m (keyOf x) x) m)).Nodup := by
  intro xs
  induction xs with
  | nil => intro m hm; exact hm
  | cons x xs ih =>
    intro m hm
    rw [List.foldl_cons]
    exact ih _ (assocKeys_nodup_jsMapSet m (keyOf x) x hm)

/-- In a key-coherent association list with distinct keys, the values
with a given key are exactly the looked-up value. -/
lemma valuesFilter_eq_lookup {β : Type} (keyOf : β → String) (k : String) :
    ∀ (m : List (String × β)),
      (∀ e ∈ m, keyOf e.2 = e.1) → (assocKeys m).Nodup →
      (m.map (fun e => e.2)).filter (fun v => keyOf v = k) =
        match lookupAssoc m k with
        | some v => [v]
        | none => [] := by
  intro m
  induction m with
  | nil => intro _ _; rfl
  | cons e m ih =>
    intro hco hnd
    have hece : keyOf e.2 = e.1 := hco e (List.mem_cons_self e m)
    have hnd' : (assocKeys m).Nodup := (List.nodup_cons.mp hnd).2
    have hnotin : e.1 ∉ assocKeys m := (List.nodup_cons.mp hnd).1
    by_cases hk : e.1 = k
    · have hfiltail :
          m.filter ((fun v => decide (keyOf v = k)) ∘ fun e => e.2) = [] := by
        apply List.filter_eq_nil_iff.mpr
        intro x hx hcon
        apply hnotin
        have hx1 := hco x (List.mem_cons_of_mem e hx)
        simp only [Function.comp, decide_eq_true_eq] at hcon
        simp only [assocKeys, List.mem_map]
        exact ⟨x, hx, by rw [← hx1, hcon, hk]⟩
      have htail : (m.map (fun e => e.2)).filter (fun v => keyOf v = k) = [] := by
        rw [List.filter_map, hfiltail]
        rfl
      have hek : keyOf e.2 = k := hece.trans hk
      simp [List.filter_cons, hek, lookupAssoc_cons, hk, htail]
    · have hek : ¬(keyOf e.2 = k) := by rw [hece]; exact hk
      simp [List.filter_cons, hek, lookupAssoc_cons, hk,
        ih (fun x hx => hco x (List.mem_cons_of_mem e hx)) hnd']

/-! ## Namespace assigner: claim C2 -/

lemma posixNormSegsAux_clean :
    ∀ (l : List String) (st : List String),
      (∀ s ∈ l, s ≠ "." ∧ s ≠ "..") →
      posixNormSegsAux st l = st.reverse ++ l := by
  intro l
  induction l with
  | nil => intro st _; simp [posixNormSegsAux]
  | cons s l ih =>
    intro st h
    have hs := h s (List.mem_cons_self s l)
    have hstep : posixNormSegsAux st (s :: l) = posixNormSegsAux (s :: st) l := by
      simp [posixNormSegsAux, hs.1, hs.2]
    rw [hstep, ih (s :: st) (fun x hx => h x (List.mem_cons_of_mem s hx))]
    simp

/-- C2: namespace derivation is a pure function of the preset reference
string (it is a Lean function, hence deterministic): a reference starting
with `@` is split on `/` verbatim (so `@scope/pkg/sub` gives
`[@scope, pkg, sub]`); any other reference is split on the host path
separator with empty, `.` and `..` segments discarded, so
`../sibling-preset` gives exactly `[sibling-preset]` and no segment of
the result is ever empty, `.` or `..`. -/
theorem extractNamespace_pure_split :
    (∀ p : String, jsStartsWith p "@" = true →
       extractNamespaceFromPresetPath p = jsSplit '/' p)
    ∧ extractNamespaceFromPresetPath "@scope/pkg/sub" = ["@scope", "pkg", "sub"]
    ∧ extractNamespaceFromPresetPath "../sibling-preset" = ["sibling-preset"]
    ∧ (∀ p : String, jsStartsWith p "@" = false →
       ∀ seg ∈ extractNamespaceFromPresetPath p,
         seg ≠ "" ∧ seg ≠ "." ∧ seg ≠ "..") := by
  refine ⟨?_, by decide, by decide, ?_⟩
  · intro p h
    simp [extractNamespaceFromPresetPath, h]
  · intro p h seg hseg
    simp only [extractNamespaceFromPresetPath, h, Bool.false_eq_true, if_false,
      List.mem_filter, Bool.and_eq_true, decide_eq_true_eq] at hseg
    exact ⟨hseg.2.1.1, hseg.2.1.2, hseg.2.2⟩

/-- Witness for C2 at the concrete references of the claim. -/
theorem extractNamespace_pure_split_witness :
    (extractNamespaceFromPresetPath "@scope/pkg/sub" =
      jsSplit '/' "@scope/pkg/sub")
    ∧ ("sibling-preset" ≠ "" ∧ "sibling-preset" ≠ "." ∧
       "sibling-preset" ≠ "..") :=
  ⟨extractNamespace_pure_split.1 "@scope/pkg/sub" (by decide),
   extractNamespace_pure_split.2.2.2 "../sibling-preset" (by decide)
     "sibling-preset" (by decide)⟩

/-! ## Rule install paths: claim C6 -/

/-- C6 counterexample: the claim states that a local rule and a
preset-sourced rule with the same name always get distinct install
paths.  For the degenerate preset reference `"."` (which resolves to the
referencing directory's own config) the namespace is empty, so the
preset rule is written to exactly the same path as the local rule. -/
theorem ruleInstallPath_collision_counterexample :
    ruleInstallSegments
      ⟨"a", "preset body", "/p/rules/a.mdc", .presetSrc, some "."⟩ =
    ruleInstallSegments
      ⟨"a", "local body", "/l/rules/a.mdc", .localSrc, none⟩ := by
  decide

/-- C6 (amended): provided the preset reference yields a nonempty
namespace (which holds for every reference with at least one segment
other than empty, `.` and `..`) and the segments involved are ordinary
names, the preset rule's install path (under its namespace directory)
and the same-named local rule's install path (with no namespace prefix)
are distinct, so neither overwrites the other. -/
theorem ruleInstallPaths_distinct (localRule presetRule : RuleFile)
    (pn : String)
    (hl : localRule.presetName = none)
    (hp : presetRule.presetName = some pn)
    (hn : presetRule.name = localRule.name)
    (hns : extractNamespaceFromPresetPath pn ≠ [])
    (hclean : ∀ seg ∈ extractNamespaceFromPresetPath pn ++
        ruleNameParts presetRule.name, seg ≠ "." ∧ seg ≠ "..") :
    ruleInstallSegments presetRule ≠ ruleInstallSegments localRule := by
  have hcleanNs : ∀ s ∈ extractNamespaceFromPresetPath pn, s ≠ "." ∧ s ≠ ".." :=
    fun s hs => hclean s (List.mem_append_left _ hs)
  have hcleanParts : ∀ s ∈ ruleNameParts presetRule.name, s ≠ "." ∧ s ≠ ".." :=
    fun s hs => hclean s (List.mem_append_right _ hs)
  simp only [ruleInstallSegments, hl, hp]
  rw [posixNormSegsAux_clean _ [] hclean, posixNormSegsAux_clean _ []
    (hn ▸ hcleanParts)]
  simp only [List.reverse_nil, List.nil_append]
  intro heq
  have hlen := congrArg List.length heq
  rw [List.length_append, hn] at hlen
  have : (extractNamespaceFromPresetPath pn).length = 0 := by omega
  exact hns (List.length_eq_zero.mp this)

/-- Witness for C6 (amended) at a concrete local/preset rule pair with
the same name. -/
theorem ruleInstallPaths_distinct_witness :
    extractNamespaceFromPresetPath "my-preset" ≠ [] ∧
    ruleInstallSegments
      ⟨"a", "preset body", "/p/rules/a.mdc", .presetSrc, some "my-preset"⟩ ≠
    ruleInstallSegments
      ⟨"a", "local body", "/l/rules/a.mdc", .localSrc, none⟩ :=
  ⟨by decide,
   ruleInstallPaths_distinct
     ⟨"a", "local body", "/l/rules/a.mdc", .localSrc, none⟩
     ⟨"a", "preset body", "/p/rules/a.mdc", .presetSrc, some "my-preset"⟩
     "my-preset" rfl rfl rfl (by decide) (by decide)⟩

/-! ## MCP-server merge: claim C8 -/

/-- C8 (code bug): the claim states that a server name the local config
maps to `false` never appears in the final merged map with a
preset-supplied value.  The merge instead deletes the `false` marker
when cancelling the first preset's definition, so a second preset that
defines the same name re-adds it: with local `srv ↦ false` and two
presets both defining `srv`, the final map carries the second preset's
definition. -/
theorem mergeMcpServers_false_cancellation_leak :
    mergeAllPresetMcpServers [("srv", .falseVal)]
      [[("srv", .server "from-preset-one")],
       [("srv", .server "from-preset-two")]] =
      [("srv", MCPServer.server "from-preset-two")] ∧
    lookupAssoc
      (mergeAllPresetMcpServers [("srv", .falseVal)]
        [[("srv", .server "from-preset-one")],
         [("srv", .server "from-preset-two")]]) "srv" =
      some (MCPServer.server "from-preset-two") := by
  exact ⟨by decide, by decide⟩

/-! ## Asset-reference rewriter: claims C3 and C4 -/

lemma charsIsPre_append_self : ∀ (v l : List Char), charsIsPre v (v ++ l) = true := by
  intro v
  induction v with
  | nil => intro l; rfl
  | cons c v ih => intro l; simp [charsIsPre, ih]

lemma assetTokenAt_cons_ne_dot (c : Char) (h : c ≠ '.') (cs : List Char) :
    assetTokenAt (c :: cs) = false := by
  have h' : ¬('.' = c) := fun hh => h hh.symm
  simp [assetTokenAt, assetTokenVariants, charsIsPre, h']

lemma assetTokenAt_tok (s : List Char) :
    assetTokenAt ('.' :: '.' :: '/' :: 'a' :: 's' :: 's' :: 'e' :: 't' ::
      's' :: '/' :: s) = true := by
  have := charsIsPre_append_self "../assets/".data s
  simp only [assetTokenAt, assetTokenVariants, List.map_cons, List.any_cons]
  rw [show ("../assets/".data ++ s : List Char) = '.' :: '.' :: '/' :: 'a' ::
    's' :: 's' :: 'e' :: 't' :: 's' :: '/' :: s from rfl] at this
  simp [this]

lemma rwAssetsFuel_succ_cons (t : List Char) (n : Nat) (c : Char)
    (cs : List Char) :
    rwAssetsFuel t (n + 1) (c :: cs) =
      if assetTokenAt (c :: cs) then t ++ rwAssetsFuel t n (cs.drop 9)
      else c :: rwAssetsFuel t n cs := rfl

lemma rwAssetsFuel_congr (t : List Char) :
    ∀ (n m : Nat) (l : List Char), l.length ≤ n → l.length ≤ m →
      rwAssetsFuel t n l = rwAssetsFuel t m l := by
  intro n
  induction n with
  | zero =>
    intro m l hn _
    have : l = [] := List.eq_nil_of_length_eq_zero (Nat.le_zero.mp hn)
    subst this
    cases m <;> rfl
  | succ n ih =>
    intro m l hn hm
    cases l with
    | nil => cases m <;> rfl
    | cons c cs =>
      cases m with
      | zero => simp at hm
      | succ m' =>
        rw [rwAssetsFuel_succ_cons, rwAssetsFuel_succ_cons]
        simp only [List.length_cons] at hn hm
        by_cases htok : assetTokenAt (c :: cs) = true
        · rw [htok]
          simp only [if_true]
          rw [ih m' (cs.drop 9) (by simp [List.length_drop]; omega)
            (by simp [List.length_drop]; omega)]
        · simp only [Bool.not_eq_true] at htok
          rw [htok]
          simp only [Bool.false_eq_true, if_false]
          rw [ih m' cs (by omega) (by omega)]

lemma rwAssetsFuel_tokenfree_id (t : List Char) :
    ∀ (n : Nat) (l : List Char), l.length ≤ n → hasAssetToken l = false →
      rwAssetsFuel t n l = l := by
  intro n
  induction n with
  | zero => intro l _ _; cases l <;> rfl
  | succ n ih =>
    intro l hn htok
    cases l with
    | nil => rfl
    | cons c cs =>
      simp only [hasAssetToken, Bool.or_eq_false_iff] at htok
      rw [rwAssetsFuel_succ_cons, htok.1]
      simp only [Bool.false_eq_true, if_false]
      rw [ih cs (by simpa using Nat.le_of_succ_le_succ hn) htok.2]

lemma rwAssetsFuel_append_tok (t : List Char) :
    ∀ (p : List Char) (s : List Char) (n : Nat),
      (∀ c ∈ p, c ≠ '.') →
      (p ++ "../assets/".data ++ s).length ≤ n →
      rwAssetsFuel t n (p ++ "../assets/".data ++ s) =
        p ++ t ++ rwAssetsFuel t s.length s := by
  intro p
  induction p with
  | nil =>
    intro s n _ hn
    simp only [List.nil_append] at hn ⊢
    cases n with
    | zero => simp at hn
    | succ n' =>
      rw [show ("../assets/".data ++ s : List Char) = '.' :: ('.' :: '/' ::
        'a' :: 's' :: 's' :: 'e' :: 't' :: 's' :: '/' :: s) from rfl]
      rw [rwAssetsFuel_succ_cons, assetTokenAt_tok]
      simp only [if_true, List.drop_succ_cons, List.drop_zero]
      rw [rwAssetsFuel_congr t n' s.length s ?_ le_rfl]
      simp only [List.length_append, List.length_cons] at hn
      omega
  | cons c p ih =>
    intro s n hp hn
    have hc : c ≠ '.' := hp c (List.mem_cons_self c p)
    cases n with
    | zero => simp at hn
    | succ n' =>
      rw [show ((c :: p) ++ "../assets/".data ++ s : List Char) =
        c :: (p ++ "../assets/".data ++ s) from by simp]
      rw [rwAssetsFuel_succ_cons, assetTokenAt_cons_ne_dot c hc]
      simp only [Bool.false_eq_true, if_false]
      rw [ih s n' (fun x hx => hp x (List.mem_cons_of_mem c hx))
        (by simp only [List.length_cons, List.length_append] at hn ⊢; omega)]
      simp

lemma stringMk_append (a b : List Char) :
    String.mk (a ++ b) = String.mk a ++ String.mk b := rfl

lemma stringMk_data (s : String) : String.mk s.data = s := by
  cases s; rfl

/-- C3 counterexample: the claim states that a token pointing to a
nonexistent file — in particular inside a fenced example code block — is
never rewritten.  The rewriter consults no filesystem at all: the token
`../assets/missing.png` inside a fenced code block is rewritten
regardless of whether any such file exists. -/
theorem rewriteAssetReferences_rewrites_nonexistent_counterexample :
    rewriteAssetReferences "```\n../assets/missing.png\n```" none 2 ≠
      "```\n../assets/missing.png\n```" ∧
    rewriteAssetReferences "```\n../assets/missing.png\n```" none 2 =
      "```\n../../assets/aicm/missing.png\n```" := by
  exact ⟨by decide, by decide⟩

/-- C3 (amended): the rewriter rewrites every `../assets/`-shaped token
unconditionally — no existence check is performed, and tokens inside
fenced example blocks are rewritten like any other occurrence; text that
is not of the token shape (for example `./`-prefixed references) is
never rewritten.  Formally, for any prefix free of `.` characters the
token following it is replaced by the computed target path and rewriting
continues after it. -/
theorem rewriteAssetReferences_unconditional (p s : String)
    (pn : Option String) (d : Nat) (hp : ∀ c ∈ p.data, c ≠ '.') :
    rewriteAssetReferences (p ++ "../assets/" ++ s) pn d =
      p ++ assetTargetPath pn d ++ rewriteAssetReferences s pn d := by
  unfold rewriteAssetReferences
  have hdata : (p ++ "../assets/" ++ s).data =
      p.data ++ "../assets/".data ++ s.data := by
    simp [String.data_append]
  rw [hdata, rwAssetsFuel_append_tok _ p.data s.data _ hp le_rfl]
  rw [show (p.data ++ (assetTargetPath pn d).data ++
      rwAssetsFuel (assetTargetPath pn d).data s.data.length s.data : List Char) =
    p.data ++ ((assetTargetPath pn d).data ++
      rwAssetsFuel (assetTargetPath pn d).data s.data.length s.data) from by simp]
  rw [stringMk_append, stringMk_append, stringMk_data, stringMk_data]
  simp [String.append_assoc]

/-- Witness for C3 (amended): a token inside a fenced code block is
rewritten. -/
theorem rewriteAssetReferences_unconditional_witness :
    rewriteAssetReferences ("```\n" ++ "../assets/" ++ "missing.png\n```")
        none 2 =
      "```\n" ++ assetTargetPath none 2 ++
        rewriteAssetReferences "missing.png\n```" none 2 :=
  rewriteAssetReferences_unconditional "```\n" "missing.png\n```" none 2
    (by decide)

/-- C4 counterexample: the claim states that applying the rewrite twice
equals applying it once for every content, preset name and depth.  The
replacement text itself contains the `../assets/` shape, so a second
application rewrites the already-rewritten content again. -/
theorem rewriteAssetReferences_not_idempotent_counterexample :
    rewriteAssetReferences (rewriteAssetReferences "../assets/x" none 2)
        none 2 ≠ rewriteAssetReferences "../assets/x" none 2 ∧
    rewriteAssetReferences "../assets/x" none 2 = "../../assets/aicm/x" ∧
    rewriteAssetReferences (rewriteAssetReferences "../assets/x" none 2)
        none 2 = "../../../assets/aicm/aicm/x" := by
  exact ⟨by decide, by decide, by decide⟩

/-- C4 (amended): the rewrite never alters text containing no
`../assets/`-shaped token — on such content it is the identity, and in
particular a second application is a no-op.  (On content that does
contain a token it is not idempotent, as the counterexample shows.) -/
theorem rewriteAssetReferences_tokenfree_identity (content : String)
    (pn : Option String) (d : Nat)
    (h : hasAssetToken content.data = false) :
    rewriteAssetReferences content pn d = content ∧
    rewriteAssetReferences (rewriteAssetReferences content pn d) pn d =
      rewriteAssetReferences content pn d := by
  have hid : rewriteAssetReferences content pn d = content := by
    unfold rewriteAssetReferences
    rw [rwAssetsFuel_tokenfree_id _ _ _ le_rfl h, stringMk_data]
  exact ⟨hid, by rw [hid]; exact hid⟩

/-- Witness for C4 (amended) on concrete token-free content (a
`./`-prefixed reference and a near-miss token are left untouched). -/
theorem rewriteAssetReferences_tokenfree_identity_witness :
    hasAssetToken "see ./assets/x and ../asset/y".data = false ∧
    rewriteAssetReferences "see ./assets/x and ../asset/y" none 2 =
      "see ./assets/x and ../asset/y" :=
  ⟨by decide,
   (rewriteAssetReferences_tokenfree_identity "see ./assets/x and ../asset/y"
     none 2 (by decide)).1⟩

/-! ## Preset cycle detection: claim C1 -/

lemma resolvePresetRefs_zero {α : Type} [DecidableEq α] (g : α → List α)
    (chain : List α) (ref : α) :
    resolvePresetRefs g 0 chain ref =
      if ref ∈ chain then
        .error (.circularPresetDependency (chain ++ [ref]))
      else .error .outOfFuel := rfl

lemma resolvePresetRefs_succ {α : Type} [DecidableEq α] (g : α → List α)
    (f : Nat) (chain : List α) (ref : α) :
    resolvePresetRefs g (f + 1) chain ref =
      if ref ∈ chain then
        .error (.circularPresetDependency (chain ++ [ref]))
      else
        (g ref).foldl
          (fun acc r =>
            match acc with
            | .error e => .error e
            | .ok _ => resolvePresetRefs g f (chain ++ [ref]) r)
          (.ok ()) := rfl

lemma resolvePresetRefs_mem {α : Type} [DecidableEq α] (g : α → List α)
    (fuel : Nat) (chain : List α) (ref : α) (h : ref ∈ chain) :
    resolvePresetRefs g fuel chain ref =
      .error (.circularPresetDependency (chain ++ [ref])) := by
  cases fuel with
  | zero => rw [resolvePresetRefs_zero, if_pos h]
  | succ f => rw [resolvePresetRefs_succ, if_pos h]

/-- Entering the cycle graph at chain position `i` (with the chain
`0 … i-1` already active) always ends in the circular-dependency error
naming the full chain, for any remaining depth `j` to the cycle. -/
lemma cycle_resolve_error (nn : Nat) :
    ∀ (j i fuel : Nat), i + j = nn + 1 → j + 1 ≤ fuel →
      resolvePresetRefs (cycleGraph nn) fuel (List.range i) i =
        .error (.circularPresetDependency (List.range (nn + 2) ++ [nn])) := by
  intro j
  induction j with
  | zero =>
    intro i fuel hi hf
    have hi' : i = nn + 1 := by omega
    subst hi'
    cases fuel with
    | zero => omega
    | succ f =>
      rw [resolvePresetRefs_succ, if_neg (by simp)]
      have hg : cycleGraph nn (nn + 1) = [nn] := by
        unfold cycleGraph
        simp
      rw [hg]
      simp only [List.foldl_cons, List.foldl_nil]
      show resolvePresetRefs (cycleGraph nn) f
        (List.range (nn + 1) ++ [nn + 1]) nn = _
      rw [← List.range_succ]
      exact resolvePresetRefs_mem _ _ _ _ (by simp only [List.mem_range]; omega)
  | succ j ih =>
    intro i fuel hi hf
    cases fuel with
    | zero => omega
    | succ f =>
      rw [resolvePresetRefs_succ, if_neg (by simp)]
      have hg : cycleGraph nn i = [i + 1] := by
        unfold cycleGraph
        by_cases hlt : i < nn
        · simp [hlt]
        · have hieq : i = nn := by omega
          subst hieq
          simp
      rw [hg]
      simp only [List.foldl_cons, List.foldl_nil]
      show resolvePresetRefs (cycleGraph nn) f (List.range i ++ [i]) (i + 1) = _
      rw [← List.range_succ]
      exact ih (i + 1) f (by omega) (by omega)

/-- C1 (spec-modelled): for the preset graph consisting of an entry
chain of any depth `n` feeding into a two-cycle (preset A references
preset B and preset B references preset A), resolution always fails with
`CircularPresetDependency` naming the full chain ending in the repeated
preset, for any sufficient recursion fuel; while the diamond graph — the
same preset reached via two different non-cyclic chains — resolves
successfully. -/
theorem resolvePresets_cycle_detection :
    (∀ n fuel : Nat, n + 2 ≤ fuel →
      resolvePresetRefs (cycleGraph n) fuel [] 0 =
        .error (.circularPresetDependency (List.range (n + 2) ++ [n])))
    ∧ resolvePresetRefs diamondGraph 5 [] 0 = .ok () := by
  constructor
  · intro n fuel hf
    have h := cycle_resolve_error n (n + 1) 0 fuel (by omega) (by omega)
    simpa using h
  · rfl

/-- Witness for C1 at a chain of depth one into the A-B cycle. -/
theorem resolvePresets_cycle_detection_witness :
    resolvePresetRefs (cycleGraph 1) 3 [] 0 =
      .error (.circularPresetDependency [0, 1, 2, 1]) := by
  rw [resolvePresets_cycle_detection.1 1 3 (by omega)]
  rfl

/-! ## Hooks config rewrite: claim C10 -/

lemma lookupLastHookFile_mem :
    ∀ (files : List HookFile) (src : String) (hf : HookFile),
      lookupLastHookFile files src = some hf → hf ∈ files := by
  intro files
  induction files with
  | nil => intro src hf h; simp [lookupLastHookFile] at h
  | cons f fs ih =>
    intro src hf h
    rw [lookupLastHookFile] at h
    cases hrec : lookupLastHookFile fs src with
    | some r =>
      rw [hrec] at h
      exact List.mem_cons_of_mem f (ih src hf (hrec.trans h))
    | none =>
      rw [hrec] at h
      by_cases hsrc : f.sourcePath = src
      · rw [if_pos hsrc] at h
        rw [← Option.some.inj h]
        exact List.mem_cons_self f fs
      · rw [if_neg hsrc] at h
        exact absurd h (by simp)

lemma lookupLastHookFile_eq_none
    (files : List HookFile) (src : String)
    (h : ∀ hf ∈ files, hf.sourcePath ≠ src) :
    lookupLastHookFile files src = none := by
  induction files with
  | nil => rfl
  | cons f fs ih =>
    rw [lookupLastHookFile,
      ih (fun hf hm => h hf (List.mem_cons_of_mem f hm)),
      if_neg (h f (List.mem_cons_self f fs))]

lemma rewriteHookCommand_keep (resolve : String → String → String)
    (files : List HookFile) (rootDir : String) (hc : HookCommand)
    (h1 : jsStartsWith hc.command "./" = false)
    (h2 : jsStartsWith hc.command "../" = false) :
    rewriteHookCommand resolve files rootDir hc = some hc := by
  unfold rewriteHookCommand
  by_cases he : hc.command = ""
  · rw [if_pos he]
  · rw [if_neg he, if_neg (by simp [h1, h2])]

/-- C10: when a loaded hooks configuration is rewritten to namespaced
command names, a command string not beginning with `./` or `../` is kept
in the output list unchanged, whereas a `./`- or `../`-prefixed command
that resolves to no loaded hook file (and whose text is not itself an
installed hook-file name) disappears from the output list entirely. -/
theorem rewriteHooksConfig_spec
    (resolve : String → String → String) (cfg : HooksJson)
    (files : List HookFile) (rootDir : String) (t : HookType)
    (cmds : List HookCommand) (hc : HookCommand)
    (ht : cfg.hooks t = some cmds) (hmem : hc ∈ cmds) :
    ((jsStartsWith hc.command "./" = false ∧
        jsStartsWith hc.command "../" = false) →
      ∃ cmds',
        (rewriteHooksConfigForNamespace resolve cfg files rootDir).hooks t =
          some cmds' ∧ hc ∈ cmds')
    ∧ ((jsStartsWith hc.command "./" = true ∨
        jsStartsWith hc.command "../" = true) →
      (∀ hf ∈ files, hf.sourcePath ≠ resolve rootDir hc.command) →
      (∀ hf ∈ files, hf.name ≠ hc.command) →
      ∀ cmds',
        (rewriteHooksConfigForNamespace resolve cfg files rootDir).hooks t =
          some cmds' →
        ∀ c ∈ cmds', c.command ≠ hc.command) := by
  constructor
  · rintro ⟨h1, h2⟩
    refine ⟨cmds.filterMap (rewriteHookCommand resolve files rootDir), ?_, ?_⟩
    · simp [rewriteHooksConfigForNamespace, ht]
    · exact List.mem_filterMap.mpr
        ⟨hc, hmem, rewriteHookCommand_keep resolve files rootDir hc h1 h2⟩
  · intro hrel hnosrc hnoname cmds' hcmds' c hcmem
    have hcne : hc.command ≠ "" := by
      intro he
      rcases hrel with h | h <;> rw [he] at h <;> exact absurd h (by decide)
    have hcmds'' : cmds' = cmds.filterMap
        (rewriteHookCommand resolve files rootDir) := by
      simp only [rewriteHooksConfigForNamespace, ht, Option.map_some] at hcmds'
      exact (Option.some.inj hcmds').symm
    subst hcmds''
    obtain ⟨a, hamem, hfa⟩ := List.mem_filterMap.mp hcmem
    unfold rewriteHookCommand at hfa
    by_cases hae : a.command = ""
    · rw [if_pos hae] at hfa
      rw [← Option.some.inj hfa, hae]
      exact fun h => hcne h.symm
    · rw [if_neg hae] at hfa
      by_cases har : (jsStartsWith a.command "./" ||
          jsStartsWith a.command "../") = true
      · rw [if_pos har] at hfa
        cases hlk : lookupLastHookFile files (resolve rootDir a.command) with
        | none => rw [hlk] at hfa; exact absurd hfa (by simp)
        | some hf =>
          rw [hlk] at hfa
          rw [← Option.some.inj hfa]
          exact hnoname hf (lookupLastHookFile_mem files _ hf hlk)
      · rw [if_neg har] at hfa
        rw [← Option.some.inj hfa]
        intro heq
        apply har
        rw [heq]
        rcases hrel with h | h <;> simp [h]

/-- Witness for C10: a plain shell command survives the rewrite, and a
relative command with no matching loaded file is dropped. -/
theorem rewriteHooksConfig_spec_witness :
    (∃ cmds',
      (rewriteHooksConfigForNamespace (fun r c => r ++ "|" ++ c)
        ⟨1, fun t => if t = HookType.beforeShellExecution then
            some [⟨"echo hi"⟩, ⟨"./gone.sh"⟩] else none⟩
        [⟨"ns/x.sh", "x.sh", [], "/root|./x.sh", .presetSrc, some "ns"⟩]
        "/root").hooks HookType.beforeShellExecution = some cmds' ∧
      (⟨"echo hi"⟩ : HookCommand) ∈ cmds')
    ∧ (∀ cmds',
      (rewriteHooksConfigForNamespace (fun r c => r ++ "|" ++ c)
        ⟨1, fun t => if t = HookType.beforeShellExecution then
            some [⟨"echo hi"⟩, ⟨"./gone.sh"⟩] else none⟩
        [⟨"ns/x.sh", "x.sh", [], "/root|./x.sh", .presetSrc, some "ns"⟩]
        "/root").hooks HookType.beforeShellExecution = some cmds' →
      ∀ c ∈ cmds', c.command ≠ "./gone.sh") :=
  ⟨(rewriteHooksConfig_spec (fun r c => r ++ "|" ++ c)
      ⟨1, fun t => if t = HookType.beforeShellExecution then
          some [⟨"echo hi"⟩, ⟨"./gone.sh"⟩] else none⟩
      [⟨"ns/x.sh", "x.sh", [], "/root|./x.sh", .presetSrc, some "ns"⟩]
      "/root" HookType.beforeShellExecution [⟨"echo hi"⟩, ⟨"./gone.sh"⟩]
      ⟨"echo hi"⟩ (by rfl) (by decide)).1 ⟨by decide, by decide⟩,
   (rewriteHooksConfig_spec (fun r c => r ++ "|" ++ c)
      ⟨1, fun t => if t = HookType.beforeShellExecution then
          some [⟨"echo hi"⟩, ⟨"./gone.sh"⟩] else none⟩
      [⟨"ns/x.sh", "x.sh", [], "/root|./x.sh", .presetSrc, some "ns"⟩]
      "/root" HookType.beforeShellExecution [⟨"echo hi"⟩, ⟨"./gone.sh"⟩]
      ⟨"./gone.sh"⟩ (by rfl) (by decide)).2 (Or.inl (by decide))
      (by decide) (by decide)⟩

/-! ## Hook-file dedup: claim C7 -/

lemma lastWith_filter_eq {α : Type} (p : α → Bool) :
    ∀ (l : List α), lastWith p l = lastWith (fun _ => true) (l.filter p) := by
  intro l
  induction l with
  | nil => rfl
  | cons x l ih =>
    by_cases hx : p x = true
    · have hf : (x :: l).filter p = x :: l.filter p := by
        simp [List.filter_cons, hx]
      rw [lastWith, ih, hf, lastWith]
      cases lastWith (fun _ => true) (l.filter p) <;> simp [hx]
    · simp only [Bool.not_eq_true] at hx
      have hf : (x :: l).filter p = l.filter p := by
        simp [List.filter_cons, hx]
      rw [lastWith, ih, hf]
      cases lastWith (fun _ => true) (l.filter p) <;> simp [hx]

lemma dedupeHookFilesGo_fst (hash : List Nat → List Nat) :
    ∀ (fs : List HookFile) (m : List (String × HookFile))
      (ws : List HookFileWarning),
      (dedupeHookFilesGo hash m ws fs).1 =
        (fs.foldl (fun m f => jsMapSet m f.name f) m).map (fun e => e.2) := by
  intro fs
  induction fs with
  | nil => intro m ws; rfl
  | cons f fs ih =>
    intro m ws
    rw [dedupeHookFilesGo, List.foldl_cons]
    cases lookupAssoc m f.name with
    | some ex => exact ih _ _
    | none => exact ih _ _

lemma dedupeHookFilesGo_warn (hash : List Nat → List Nat) (n : String) :
    ∀ (fs : List HookFile) (m : List (String × HookFile))
      (ws : List HookFileWarning),
      ((dedupeHookFilesGo hash m ws fs).2).filter (fun w => w.name = n) =
        ws.filter (fun w => w.name = n) ++
          hookWarnSeq hash (lookupAssoc m n)
            (fs.filter (fun f => f.name = n)) := by
  intro fs
  induction fs with
  | nil =>
    intro m ws
    rw [dedupeHookFilesGo]
    cases lookupAssoc m n <;> simp [hookWarnSeq]
  | cons f fs ih =>
    intro m ws
    rw [dedupeHookFilesGo]
    by_cases hfn : f.name = n
    · subst hfn
      have hfcons : (f :: fs).filter (fun x => x.name = f.name) =
          f :: fs.filter (fun x => x.name = f.name) := by
        simp [List.filter_cons]
      rw [hfcons]
      cases hlk : lookupAssoc m f.name with
      | some ex =>
        rw [ih, lookupAssoc_jsMapSet_self m f.name f, hookWarnSeq]
        by_cases hh : hash ex.content ≠ hash f.content
        · rw [if_pos hh, if_pos hh, List.filter_append]
          simp
        · rw [if_neg hh, if_neg hh]
          simp
      | none =>
        rw [ih, lookupAssoc_jsMapSet_self m f.name f, hookWarnSeq]
    · have hfcons : (f :: fs).filter (fun x => x.name = n) =
          fs.filter (fun x => x.name = n) := by
        simp [List.filter_cons, hfn]
      rw [hfcons]
      cases hlk : lookupAssoc m f.name with
      | some ex =>
        rw [ih, lookupAssoc_jsMapSet_ne m f.name f n (fun h => hfn h.symm)]
        by_cases hh : hash ex.content ≠ hash f.content
        · rw [if_pos hh, List.filter_append]
          simp [hfn]
        · rw [if_neg hh]
      | none =>
        rw [ih, lookupAssoc_jsMapSet_ne m f.name f n (fun h => hfn h.symm)]

/-- C7: deduplicating hook files by namespaced name keeps, for a name
occurring twice, exactly the last-encountered entry; a content-hash
mismatch emits a warning naming both sources while identical content is
unified silently; and the result always has one entry per name. -/
theorem dedupeHookFiles_spec (hash : List Nat → List Nat)
    (files : List HookFile) (n : String) (a b : HookFile)
    (hocc : files.filter (fun f => f.name = n) = [a, b]) :
    ((dedupeHookFiles hash files).1.filter (fun f => f.name = n) = [b])
    ∧ (hash a.content ≠ hash b.content →
        (⟨n, hookSourceInfo a, hookSourceInfo b⟩ : HookFileWarning) ∈
          (dedupeHookFiles hash files).2)
    ∧ (a.content = b.content →
        ∀ w ∈ (dedupeHookFiles hash files).2, w.name ≠ n)
    ∧ ((dedupeHookFiles hash files).1.map (fun f => f.name)).Nodup := by
  have hbmem : b ∈ files.filter (fun f => f.name = n) := by
    rw [hocc]; simp
  have hbn : b.name = n := by
    have := List.mem_filter.mp hbmem
    simpa using this.2
  have hfst : (dedupeHookFiles hash files).1 =
      (files.foldl (fun m f => jsMapSet m f.name f) []).map (fun e => e.2) :=
    dedupeHookFilesGo_fst hash files [] []
  have hco : ∀ e ∈ files.foldl (fun m f => jsMapSet m f.name f)
      ([] : List (String × HookFile)), e.2.name = e.1 :=
    foldIns_coherent (fun f => f.name) files [] (by simp)
  have hnd : (assocKeys (files.foldl (fun m f => jsMapSet m f.name f)
      ([] : List (String × HookFile)))).Nodup :=
    foldIns_keys_nodup (fun f => f.name) files [] (by simp [assocKeys])
  have hwarn : ((dedupeHookFiles hash files).2).filter (fun w => w.name = n) =
      hookWarnSeq hash none [a, b] := by
    have h := dedupeHookFilesGo_warn hash n files [] []
    rw [show (dedupeHookFilesGo hash [] [] files) = dedupeHookFiles hash files
      from rfl] at h
    rw [h, hocc]
    rfl
  refine ⟨?_, ?_, ?_, ?_⟩
  · rw [hfst, valuesFilter_eq_lookup (fun f => f.name) n _ hco hnd,
      lookupAssoc_foldIns (fun f => f.name) files [] n,
      lastWith_filter_eq, hocc]
    rfl
  · intro hh
    have : ((dedupeHookFiles hash files).2).filter (fun w => w.name = n) =
        [⟨b.name, hookSourceInfo a, hookSourceInfo b⟩] := by
      rw [hwarn, hookWarnSeq, hookWarnSeq, if_pos hh, hookWarnSeq]
      simp
    have hmem : (⟨b.name, hookSourceInfo a, hookSourceInfo b⟩ :
        HookFileWarning) ∈
        ((dedupeHookFiles hash files).2).filter (fun w => w.name = n) := by
      rw [this]; simp
    rw [hbn] at hmem
    exact List.mem_of_mem_filter hmem
  · intro hcontent w hw hwn
    have hh : ¬(hash a.content ≠ hash b.content) := by
      simp [hcontent]
    have : ((dedupeHookFiles hash files).2).filter (fun w => w.name = n) =
        [] := by
      rw [hwarn, hookWarnSeq, hookWarnSeq, if_neg hh, hookWarnSeq]
      simp
    have : w ∈ (([] : List HookFileWarning)) := by
      rw [← this]
      exact List.mem_filter.mpr ⟨hw, by simp [hwn]⟩
    simp at this
  · rw [hfst, List.map_map]
    have : (files.foldl (fun m f => jsMapSet m f.name f)
        ([] : List (String × HookFile))).map
          ((fun f => f.name) ∘ fun e => e.2) =
        assocKeys (files.foldl (fun m f => jsMapSet m f.name f) []) := by
      apply List.map_congr_left
      intro e he
      exact hco e he
    rw [this]
    exact hnd

/-- Witness for C7 at two same-name hook files: differing content warns
and keeps the last, identical content never warns. -/
theorem dedupeHookFiles_spec_witness :
    ((dedupeHookFiles id
      [⟨"check.sh", "check.sh", [1], "/a", .presetSrc, some "p1"⟩,
       ⟨"check.sh", "check.sh", [2], "/b", .presetSrc, some "p2"⟩]).1.filter
        (fun f => f.name = "check.sh") =
      [⟨"check.sh", "check.sh", [2], "/b", .presetSrc, some "p2"⟩])
    ∧ ((⟨"check.sh", "preset \"p1\"", "preset \"p2\""⟩ : HookFileWarning) ∈
      (dedupeHookFiles id
        [⟨"check.sh", "check.sh", [1], "/a", .presetSrc, some "p1"⟩,
         ⟨"check.sh", "check.sh", [2], "/b", .presetSrc, some "p2"⟩]).2)
    ∧ (∀ w ∈ (dedupeHookFiles id
        [⟨"check.sh", "check.sh", [1], "/a", .presetSrc, some "p1"⟩,
         ⟨"check.sh", "check.sh", [1], "/b", .presetSrc, some "p2"⟩]).2,
        w.name ≠ "check.sh") := by
  refine ⟨?_, ?_, ?_⟩
  · exact (dedupeHookFiles_spec id
      [⟨"check.sh", "check.sh", [1], "/a", .presetSrc, some "p1"⟩,
       ⟨"check.sh", "check.sh", [2], "/b", .presetSrc, some "p2"⟩]
      "check.sh"
      ⟨"check.sh", "check.sh", [1], "/a", .presetSrc, some "p1"⟩
      ⟨"check.sh", "check.sh", [2], "/b", .presetSrc, some "p2"⟩
      (by decide)).1
  · exact (dedupeHookFiles_spec id
      [⟨"check.sh", "check.sh", [1], "/a", .presetSrc, some "p1"⟩,
       ⟨"check.sh", "check.sh", [2], "/b", .presetSrc, some "p2"⟩]
      "check.sh"
      ⟨"check.sh", "check.sh", [1], "/a", .presetSrc, some "p1"⟩
      ⟨"check.sh", "check.sh", [2], "/b", .presetSrc, some "p2"⟩
      (by decide)).2.1 (by decide)
  · exact (dedupeHookFiles_spec id
      [⟨"check.sh", "check.sh", [1], "/a", .presetSrc, some "p1"⟩,
       ⟨"check.sh", "check.sh", [1], "/b", .presetSrc, some "p2"⟩]
      "check.sh"
      ⟨"check.sh", "check.sh", [1], "/a", .presetSrc, some "p1"⟩
      ⟨"check.sh", "check.sh", [1], "/b", .presetSrc, some "p2"⟩
      (by decide)).2.2.1 rfl

/-! ## Override resolver: claim C9 -/

lemma applyOverridesLoop_cons_disable (fsRead : String → Option String)
    (cwd k : String) (rest : List (String × OverrideValue))
    (m : List (String × ManagedFile)) :
    applyOverridesLoop fsRead cwd ((k, OverrideValue.disable) :: rest) m =
      applyOverridesLoop fsRead cwd rest (removeAssoc m k) := rfl

lemma applyOverridesLoop_cons_path (fsRead : String → Option String)
    (cwd k p : String) (rest : List (String × OverrideValue))
    (m : List (String × ManagedFile)) :
    applyOverridesLoop fsRead cwd ((k, OverrideValue.filePath p) :: rest) m =
      match fsRead (resolvePath cwd p) with
      | none => .error (.overrideFileNotFound p)
      | some content =>
        applyOverridesLoop fsRead cwd rest
          (jsMapSet m k ⟨k, content, resolvePath cwd p, .localSrc, none⟩) := rfl

lemma applyOverridesLoop_untouched (fsRead : String → Option String)
    (cwd : String) :
    ∀ (ovs : List (String × OverrideValue)) (m : List (String × ManagedFile))
      (nm : String), nm ∉ ovs.map (fun ov => ov.1) →
      ∀ out, applyOverridesLoop fsRead cwd ovs m = .ok out →
        lookupAssoc out nm = lookupAssoc m nm := by
  intro ovs
  induction ovs with
  | nil =>
    intro m nm _ out hout
    rw [applyOverridesLoop] at hout
    rw [← Except.ok.inj hout]
  | cons ov rest ih =>
    obtain ⟨k, v⟩ := ov
    intro m nm hnm out hout
    simp only [List.map_cons, List.mem_cons, not_or] at hnm
    cases v with
    | disable =>
      rw [applyOverridesLoop_cons_disable] at hout
      rw [ih (removeAssoc m k) nm hnm.2 out hout]
      exact lookupAssoc_removeAssoc_ne m k nm hnm.1
    | filePath p =>
      rw [applyOverridesLoop_cons_path] at hout
      cases hread : fsRead (resolvePath cwd p) with
      | none => rw [hread] at hout; exact absurd hout (by simp)
      | some content =>
        rw [hread] at hout
        rw [ih _ nm hnm.2 out hout]
        exact lookupAssoc_jsMapSet_ne m k _ nm hnm.1

lemma applyOverridesLoop_disable (fsRead : String → Option String)
    (cwd : String) :
    ∀ (ovs : List (String × OverrideValue)) (m : List (String × ManagedFile))
      (nm : String), (ovs.map (fun ov => ov.1)).Nodup →
      (nm, OverrideValue.disable) ∈ ovs →
      ∀ out, applyOverridesLoop fsRead cwd ovs m = .ok out →
        lookupAssoc out nm = none := by
  intro ovs
  induction ovs with
  | nil => intro m nm _ hmem; simp at hmem
  | cons ov rest ih =>
    obtain ⟨k, v⟩ := ov
    intro m nm hnd hmem out hout
    simp only [List.map_cons, List.nodup_cons] at hnd
    rcases List.mem_cons.mp hmem with hhead | htail
    · obtain ⟨hk, hv⟩ := Prod.mk.injEq .. ▸ hhead
      subst hk
      subst hv
      rw [applyOverridesLoop_cons_disable] at hout
      rw [applyOverridesLoop_untouched fsRead cwd rest _ nm hnd.1 out hout]
      exact lookupAssoc_removeAssoc_self m nm
    · cases v with
      | disable =>
        rw [applyOverridesLoop_cons_disable] at hout
        exact ih _ nm hnd.2 htail out hout
      | filePath p =>
        rw [applyOverridesLoop_cons_path] at hout
        cases hread : fsRead (resolvePath cwd p) with
        | none => rw [hread] at hout; exact absurd hout (by simp)
        | some content =>
          rw [hread] at hout
          exact ih _ nm hnd.2 htail out hout

lemma applyOverridesLoop_path (fsRead : String → Option String)
    (cwd : String) :
    ∀ (ovs : List (String × OverrideValue)) (m : List (String × ManagedFile))
      (nm p : String) (content : String),
      (ovs.map (fun ov => ov.1)).Nodup →
      (nm, OverrideValue.filePath p) ∈ ovs →
      fsRead (resolvePath cwd p) = some content →
      ∀ out, applyOverridesLoop fsRead cwd ovs m = .ok out →
        lookupAssoc out nm =
          some ⟨nm, content, resolvePath cwd p, .localSrc, none⟩ := by
  intro ovs
  induction ovs with
  | nil => intro m nm p content _ hmem; simp at hmem
  | cons ov rest ih =>
    obtain ⟨k, v⟩ := ov
    intro m nm p content hnd hmem hread out hout
    simp only [List.map_cons, List.nodup_cons] at hnd
    rcases List.mem_cons.mp hmem with hhead | htail
    · obtain ⟨hk, hv⟩ := Prod.mk.injEq .. ▸ hhead
      subst hk
      subst hv
      rw [applyOverridesLoop_cons_path] at hout
      rw [hread] at hout
      rw [applyOverridesLoop_untouched fsRead cwd rest _ nm hnd.1 out hout]
      exact lookupAssoc_jsMapSet_self m nm _
    · cases v with
      | disable =>
        rw [applyOverridesLoop_cons_disable] at hout
        exact ih _ nm p content hnd.2 htail hread out hout
      | filePath p' =>
        rw [applyOverridesLoop_cons_path] at hout
        cases hread' : fsRead (resolvePath cwd p') with
        | none => rw [hread'] at hout; exact absurd hout (by simp)
        | some content' =>
          rw [hread'] at hout
          exact ih _ nm p content hnd.2 htail hread out hout

lemma applyOverridesLoop_inv (fsRead : String → Option String) (cwd : String) :
    ∀ (ovs : List (String × OverrideValue)) (m : List (String × ManagedFile)),
      (∀ e ∈ m, e.2.name = e.1) → (assocKeys m).Nodup →
      ∀ out, applyOverridesLoop fsRead cwd ovs m = .ok out →
        (∀ e ∈ out, e.2.name = e.1) ∧ (assocKeys out).Nodup := by
  intro ovs
  induction ovs with
  | nil =>
    intro m hco hnd out hout
    rw [applyOverridesLoop] at hout
    rw [← Except.ok.inj hout]
    exact ⟨hco, hnd⟩
  | cons ov rest ih =>
    obtain ⟨k, v⟩ := ov
    intro m hco hnd out hout
    cases v with
    | disable =>
      rw [applyOverridesLoop_cons_disable] at hout
      refine ih (removeAssoc m k) ?_ ?_ out hout
      · intro e he
        exact hco e (List.mem_of_mem_filter he)
      · have hsub : assocKeys (removeAssoc m k) =
            (m.filter (fun e => e.1 ≠ k)).map (fun e => e.1) := rfl
        rw [hsub]
        exact List.Nodup.sublist
          ((List.filter_sublist m).map (fun e => e.1)) hnd
    | filePath p =>
      rw [applyOverridesLoop_cons_path] at hout
      cases hread : fsRead (resolvePath cwd p) with
      | none => rw [hread] at hout; exact absurd hout (by simp)
      | some content =>
        rw [hread] at hout
        refine ih _ ?_ ?_ out hout
        · intro e he
          rcases mem_jsMapSet m k _ e he with h | h
          · exact hco e h
          · rw [h]
        · exact assocKeys_nodup_jsMapSet m k _ hnd

/-- C9: applying an overrides map to the merged collection fails with a
validation error whenever some key matches no merged name; a key mapped
to `false` removes that entry from the result; and a key mapped to a
file path replaces the entry by one carrying the local file's content,
`local` provenance, no preset name, and the same name. -/
theorem applyOverrides_spec (fsRead : String → Option String) (cwd : String)
    (files : List ManagedFile) (ovs : List (String × OverrideValue)) :
    ((∃ ov ∈ ovs, ∀ f ∈ files, f.name ≠ ov.1) →
      ∃ nm, applyOverrides fsRead cwd files ovs = .error (.missingEntry nm) ∧
        ∀ f ∈ files, f.name ≠ nm)
    ∧ (∀ nm, (ovs.map (fun ov => ov.1)).Nodup →
        (nm, OverrideValue.disable) ∈ ovs →
        ∀ out, applyOverrides fsRead cwd files ovs = .ok out →
          ∀ f ∈ out, f.name ≠ nm)
    ∧ (∀ nm p content, (ovs.map (fun ov => ov.1)).Nodup →
        (nm, OverrideValue.filePath p) ∈ ovs →
        fsRead (resolvePath cwd p) = some content →
        ∀ out, applyOverrides fsRead cwd files ovs = .ok out →
          out.filter (fun f => f.name = nm) =
            [⟨nm, content, resolvePath cwd p, .localSrc, none⟩]) := by
  have hm0co : ∀ e ∈ files.foldl (fun m f => jsMapSet m f.name f)
      ([] : List (String × ManagedFile)), e.2.name = e.1 :=
    foldIns_coherent (fun f => f.name) files [] (by simp)
  have hm0nd : (assocKeys (files.foldl (fun m f => jsMapSet m f.name f)
      ([] : List (String × ManagedFile)))).Nodup :=
    foldIns_keys_nodup (fun f => f.name) files [] (by simp [assocKeys])
  refine ⟨?_, ?_, ?_⟩
  · rintro ⟨ov₀, hmem, hnone⟩
    have hpred : (fun ov => !files.any (fun f => f.name == ov.1)) ov₀ = true := by
      simp only [Bool.not_eq_true']
      rw [List.any_eq_false]
      intro f hf
      simp [hnone f hf]
    have hsome : (ovs.find? (fun ov => !files.any (fun f => f.name == ov.1))).isSome :=
      List.find?_isSome.mpr ⟨ov₀, hmem, hpred⟩
    obtain ⟨ov, hfind⟩ := Option.isSome_iff_exists.mp hsome
    refine ⟨ov.1, ?_, ?_⟩
    · rw [applyOverrides, hfind]
    · have := List.find?_some hfind
      simp only [Bool.not_eq_true'] at this
      rw [List.any_eq_false] at this
      intro f hf
      simpa using this f hf
  · intro nm hnd hmem out hout
    rw [applyOverrides] at hout
    cases hfind : ovs.find? (fun ov => !files.any (fun f => f.name == ov.1)) with
    | some ov => rw [hfind] at hout; exact absurd hout (by simp)
    | none =>
      rw [hfind] at hout
      cases hloop : applyOverridesLoop fsRead cwd ovs
          (files.foldl (fun m f => jsMapSet m f.name f) []) with
      | error e => rw [hloop] at hout; exact absurd hout (by simp [Except.map])
      | ok m1 =>
        rw [hloop] at hout
        simp only [Except.map, Except.ok.injEq] at hout
        obtain ⟨hco1, hnd1⟩ :=
          applyOverridesLoop_inv fsRead cwd ovs _ hm0co hm0nd m1 hloop
        have hlk : lookupAssoc m1 nm = none :=
          applyOverridesLoop_disable fsRead cwd ovs _ nm hnd hmem m1 hloop
        intro f hf hfn
        have : f ∈ out.filter (fun f => f.name = nm) :=
          List.mem_filter.mpr ⟨hf, by simp [hfn]⟩
        rw [← hout, valuesFilter_eq_lookup (fun f => f.name) nm m1 hco1 hnd1,
          hlk] at this
        simp at this
  · intro nm p content hnd hmem hread out hout
    rw [applyOverrides] at hout
    cases hfind : ovs.find? (fun ov => !files.any (fun f => f.name == ov.1)) with
    | some ov => rw [hfind] at hout; exact absurd hout (by simp)
    | none =>
      rw [hfind] at hout
      cases hloop : applyOverridesLoop fsRead cwd ovs
          (files.foldl (fun m f => jsMapSet m f.name f) []) with
      | error e => rw [hloop] at hout; exact absurd hout (by simp [Except.map])
      | ok m1 =>
        rw [hloop] at hout
        simp only [Except.map, Except.ok.injEq] at hout
        obtain ⟨hco1, hnd1⟩ :=
          applyOverridesLoop_inv fsRead cwd ovs _ hm0co hm0nd m1 hloop
        have hlk : lookupAssoc m1 nm =
            some ⟨nm, content, resolvePath cwd p, .localSrc, none⟩ :=
          applyOverridesLoop_path fsRead cwd ovs _ nm p content hnd hmem
            hread m1 hloop
        rw [← hout, valuesFilter_eq_lookup (fun f => f.name) nm m1 hco1 hnd1,
          hlk]

/-- Witness for C9: a missing key fails, `false` removes, and a path
override replaces content with local provenance. -/
theorem applyOverrides_spec_witness :
    (∃ nm, applyOverrides (fun _ => none) "/cwd"
        [⟨"r", "old", "/s", .localSrc, none⟩] [("zzz", .disable)] =
        .error (.missingEntry nm) ∧
      ∀ f ∈ [(⟨"r", "old", "/s", .localSrc, none⟩ : ManagedFile)],
        f.name ≠ nm)
    ∧ (∀ f ∈ [(⟨"keep", "kept", "/k", .localSrc, none⟩ : ManagedFile)],
        f.name ≠ "gone")
    ∧ ((fun q => if q = "/cwd/new.md" then some "NEW" else none) :
        String → Option String) (resolvePath "/cwd" "new.md") = some "NEW" := by
  refine ⟨?_, ?_, by decide⟩
  · exact (applyOverrides_spec (fun _ => none) "/cwd"
      [⟨"r", "old", "/s", .localSrc, none⟩] [("zzz", .disable)]).1
      ⟨("zzz", .disable), by decide, by decide⟩
  · intro f hf
    have h := (applyOverrides_spec (fun _ => none) "/cwd"
      [⟨"gone", "g", "/g", .localSrc, none⟩,
       ⟨"keep", "kept", "/k", .localSrc, none⟩]
      [("gone", .disable)]).2.1 "gone" (by decide) (by decide)
      [⟨"keep", "kept", "/k", .localSrc, none⟩] (by rfl)
    exact h f hf

/-! ## Command collisions and dedup: claim C5 -/

lemma mem_insertSorted (a x : String) :
    ∀ (l : List String), a ∈ insertSorted x l ↔ a = x ∨ a ∈ l := by
  intro l
  induction l with
  | nil => simp [insertSorted]
  | cons y ys ih =>
    by_cases h : strLe x y = true
    · simp [insertSorted, h]
    · simp only [Bool.not_eq_true] at h
      simp only [insertSorted, h, Bool.false_eq_true, if_false,
        List.mem_cons, ih]
      tauto

lemma mem_sortStrings (a : String) :
    ∀ (l : List String), a ∈ sortStrings l ↔ a ∈ l := by
  intro l
  induction l with
  | nil => simp [sortStrings]
  | cons x xs ih => simp [sortStrings, mem_insertSorted, ih]

lemma mem_distinctInsert (a p : String) (d : List String) :
    a ∈ distinctInsert d p ↔ a ∈ d ∨ a = p := by
  unfold distinctInsert
  by_cases h : p ∈ d
  · simp only [h, if_true]
    constructor
    · exact Or.inl
    · rintro (ha | ha)
      · exact ha
      · exact ha ▸ h
  · simp [h]

lemma mem_foldl_distinctInsert (a : String) :
    ∀ (ps : List String) (d : List String),
      a ∈ ps.foldl distinctInsert d ↔ a ∈ d ∨ a ∈ ps := by
  intro ps
  induction ps with
  | nil => simp
  | cons p ps ih =>
    intro d
    rw [List.foldl_cons, ih, mem_distinctInsert]
    simp only [List.mem_cons]
    tauto

lemma mem_distinctPresets (a : String) (ps : List String) :
    a ∈ distinctPresets ps ↔ a ∈ ps := by
  rw [distinctPresets, mem_foldl_distinctInsert]
  simp

lemma distinctPresets_cons (p : String) (ps : List String) :
    distinctPresets (p :: ps) = ps.foldl distinctInsert [p] := by
  rw [distinctPresets, List.foldl_cons]
  have : distinctInsert [] p = [p] := by simp [distinctInsert]
  rw [this]

lemma lastWithTrue_cons :
    ∀ (ps : List String) (p : String),
      lastWith (fun _ => true) (p :: ps) = some (lastStrD p ps) := by
  intro ps
  induction ps with
  | nil => intro p; rfl
  | cons q ps ih =>
    intro p
    rw [lastWith, ih q, lastStrD]

lemma lastWith_some {α : Type} (p : α → Bool) :
    ∀ (l : List α) (x : α), lastWith p l = some x → p x = true ∧ x ∈ l := by
  intro l
  induction l with
  | nil => intro x h; simp [lastWith] at h
  | cons y ys ih =>
    intro x h
    rw [lastWith] at h
    cases hrec : lastWith p ys with
    | some z =>
      rw [hrec] at h
      obtain ⟨hp, hm⟩ := ih z hrec
      rw [← Option.some.inj h]
      exact ⟨hp, List.mem_cons_of_mem y hm⟩
    | none =>
      rw [hrec] at h
      by_cases hy : p y = true
      · rw [if_pos hy] at h
        rw [← Option.some.inj h]
        exact ⟨hy, List.mem_cons_self y ys⟩
      · rw [if_neg hy] at h
        exact absurd h (by simp)

lemma lastWith_none {α : Type} (p : α → Bool) :
    ∀ (l : List α), lastWith p l = none → ∀ x ∈ l, p x = false := by
  intro l
  induction l with
  | nil => intro _ x hx; simp at hx
  | cons y ys ih =>
    intro h x hx
    rw [lastWith] at h
    cases hrec : lastWith p ys with
    | some z => rw [hrec] at h; exact absurd h (by simp)
    | none =>
      rw [hrec] at h
      by_cases hy : p y = true
      · rw [if_pos hy] at h; exact absurd h (by simp)
      · rw [if_neg hy] at h
        rcases List.mem_cons.mp hx with hxy | hxys
        · rw [hxy]
          simpa using hy
        · exact ih hrec x hxys

lemma contribPresetList_cons (c : CommandFile) (cs : List CommandFile)
    (n : String) :
    contribPresetList (c :: cs) n =
      match (if c.name = n then c.presetName else none) with
      | some pn => pn :: contribPresetList cs n
      | none => contribPresetList cs n := by
  rw [contribPresetList, List.filterMap_cons]
  cases hv : (if c.name = n then c.presetName else none) with
  | none => rfl
  | some pn => rfl

lemma lookupAssoc_append_ne {β : Type} (acc : List (String × β))
    (k : String) (v : β) (n : String) (h : ¬(k = n)) :
    lookupAssoc (acc ++ [(k, v)]) n = lookupAssoc acc n := by
  rw [lookupAssoc_append]
  cases lookupAssoc acc n <;> simp [lookupAssoc, h]

lemma lookupAssoc_append_self {β : Type} (acc : List (String × β))
    (k : String) (v : β) (h : lookupAssoc acc k = none) :
    lookupAssoc (acc ++ [(k, v)]) k = some v := by
  rw [lookupAssoc_append, h]
  simp [lookupAssoc]

lemma lookupAssoc_collectCollisionsGo (n : String) :
    ∀ (cs : List CommandFile) (acc : List (String × (List String × String))),
      lookupAssoc (collectCollisionsGo acc cs) n =
        (contribPresetList cs n).foldl collisionEntryStep
          (lookupAssoc acc n) := by
  intro cs
  induction cs with
  | nil => intro acc; rfl
  | cons c cs ih =>
    intro acc
    rw [collectCollisionsGo, contribPresetList_cons]
    cases hpn : c.presetName with
    | none =>
      rw [ite_self]
      show lookupAssoc (collectCollisionsGo acc cs) n =
        (contribPresetList cs n).foldl collisionEntryStep (lookupAssoc acc n)
      exact ih acc
    | some pn =>
      by_cases hcn : c.name = n
      · subst hcn
        rw [if_pos rfl]
        cases hlk : lookupAssoc acc c.name with
        | some e =>
          show lookupAssoc (collectCollisionsGo
              (jsMapSet acc c.name ((if pn ∈ e.1 then e.1 else e.1 ++ [pn]),
                pn)) cs) c.name =
            (pn :: contribPresetList cs c.name).foldl collisionEntryStep
              (some e)
          rw [ih, lookupAssoc_jsMapSet_self, List.foldl_cons]
          rfl
        | none =>
          show lookupAssoc (collectCollisionsGo
              (acc ++ [(c.name, ([pn], pn))]) cs) c.name =
            (pn :: contribPresetList cs c.name).foldl collisionEntryStep none
          rw [ih, lookupAssoc_append_self acc c.name _ hlk, List.foldl_cons]
          rfl
      · rw [if_neg hcn]
        cases hlk : lookupAssoc acc c.name with
        | some e =>
          show lookupAssoc (collectCollisionsGo
              (jsMapSet acc c.name ((if pn ∈ e.1 then e.1 else e.1 ++ [pn]),
                pn)) cs) n =
            (contribPresetList cs n).foldl collisionEntryStep
              (lookupAssoc acc n)
          rw [ih, lookupAssoc_jsMapSet_ne acc c.name _ n (fun h => hcn h.symm)]
        | none =>
          show lookupAssoc (collectCollisionsGo
              (acc ++ [(c.name, ([pn], pn))]) cs) n =
            (contribPresetList cs n).foldl collisionEntryStep
              (lookupAssoc acc n)
          rw [ih, lookupAssoc_append_ne acc c.name _ n hcn]

lemma foldl_collisionEntryStep_some :
    ∀ (ps : List String) (d : List String × String),
      ps.foldl collisionEntryStep (some d) =
        some (ps.foldl distinctInsert d.1, lastStrD d.2 ps) := by
  intro ps
  induction ps with
  | nil => intro d; rfl
  | cons p ps ih =>
    intro d
    rw [List.foldl_cons, show collisionEntryStep (some d) p =
      some (distinctInsert d.1 p, p) from rfl, ih, List.foldl_cons, lastStrD]

lemma lastWithTrue_contrib (n : String) :
    ∀ (cs : List CommandFile),
      (∀ c ∈ cs, c.name = n → (c.presetName).isSome = true) →
      ∀ (cl : CommandFile), lastWith (fun c => c.name = n) cs = some cl →
        lastWith (fun _ => true) (contribPresetList cs n) = cl.presetName := by
  intro cs
  induction cs with
  | nil => intro _ cl h; simp [lastWith] at h
  | cons c cs ih =>
    intro hall cl hcl
    rw [lastWith] at hcl
    rw [contribPresetList_cons]
    cases hrec : lastWith (fun c => decide (c.name = n)) cs with
    | some y =>
      rw [hrec] at hcl
      have hy := ih (fun x hx => hall x (List.mem_cons_of_mem c hx)) y hrec
      have hyn : y.name = n := by
        have := (lastWith_some _ cs y hrec).1
        simpa using this
      have hysome : (y.presetName).isSome = true :=
        hall y (List.mem_cons_of_mem c ((lastWith_some _ cs y hrec).2)) hyn
      obtain ⟨py, hpy⟩ := Option.isSome_iff_exists.mp hysome
      rw [← Option.some.inj hcl]
      cases hv : (if c.name = n then c.presetName else none) with
      | none => exact hy
      | some pn =>
        rw [lastWith, hy, hpy]
    | none =>
      rw [hrec] at hcl
      by_cases hcn : c.name = n
      · rw [if_pos (by simpa using hcn)] at hcl
        have hcsome : (c.presetName).isSome = true :=
          hall c (List.mem_cons_self c cs) hcn
        obtain ⟨pc, hpc⟩ := Option.isSome_iff_exists.mp hcsome
        have hcontribnil : contribPresetList cs n = [] := by
          rw [contribPresetList, List.filterMap_eq_nil_iff]
          intro x hx
          have := lastWith_none _ cs hrec x hx
          simp only [decide_eq_false_iff_not] at this
          rw [if_neg this]
        rw [if_pos hcn, hpc, hcontribnil]
        rw [← Option.some.inj hcl, hpc]
        rfl
      · rw [if_neg (by simpa using hcn)] at hcl
        exact absurd hcl (by simp)

/-- C5: when at least two distinct presets provide the same command name
(and every entry with that name is preset-sourced), the installed set
keeps exactly one entry for that name — the last-declared one — and a
warning is emitted that lists precisely the contributing presets and
names the chosen (last) one, which is the kept entry's preset. -/
theorem presetCommandCollision_last_wins (cs : List CommandFile) (n : String)
    (cl : CommandFile)
    (hlast : lastWith (fun c => c.name = n) cs = some cl)
    (hall : ∀ c ∈ cs, c.name = n → (c.presetName).isSome = true)
    (hmulti : 1 < (distinctPresets (contribPresetList cs n)).length) :
    ((dedupeCommandsForInstall cs).filter (fun c => c.name = n) = [cl])
    ∧ (∃ w ∈ warnPresetCommandCollisions cs, w.commandName = n ∧
        (∀ p, p ∈ w.presets ↔ p ∈ contribPresetList cs n) ∧
        some w.chosen = cl.presetName) := by
  constructor
  · have hco : ∀ e ∈ cs.foldl (fun m c => jsMapSet m c.name c)
        ([] : List (String × CommandFile)), e.2.name = e.1 :=
      foldIns_coherent (fun c => c.name) cs [] (by simp)
    have hnd : (assocKeys (cs.foldl (fun m c => jsMapSet m c.name c)
        ([] : List (String × CommandFile)))).Nodup :=
      foldIns_keys_nodup (fun c => c.name) cs [] (by simp [assocKeys])
    rw [show dedupeCommandsForInstall cs =
      (cs.foldl (fun m c => jsMapSet m c.name c) []).map (fun e => e.2)
      from rfl]
    rw [valuesFilter_eq_lookup (fun c => c.name) n _ hco hnd,
      lookupAssoc_foldIns (fun c => c.name) cs [] n, hlast]
  · cases hcontrib : contribPresetList cs n with
    | nil =>
      rw [hcontrib] at hmulti
      simp [distinctPresets] at hmulti
    | cons p ps =>
      have hlk : lookupAssoc (collectCollisionsGo [] cs) n =
          some (ps.foldl distinctInsert [p], lastStrD p ps) := by
        rw [lookupAssoc_collectCollisionsGo n cs [], hcontrib]
        rw [show lookupAssoc ([] :
          List (String × (List String × String))) n = none from rfl]
        rw [List.foldl_cons, show collisionEntryStep none p = some ([p], p)
          from rfl]
        exact foldl_collisionEntryStep_some ps ([p], p)
      have hdp : distinctPresets (contribPresetList cs n) =
          ps.foldl distinctInsert [p] := by
        rw [hcontrib, distinctPresets_cons]
      have hmulti' : 1 < (ps.foldl distinctInsert [p]).length := by
        rw [← hdp]; exact hmulti
      refine ⟨⟨n, sortStrings (ps.foldl distinctInsert [p]), lastStrD p ps⟩,
        ?_, rfl, ?_, ?_⟩
      · rw [warnPresetCommandCollisions]
        apply List.mem_filterMap.mpr
        refine ⟨(n, (ps.foldl distinctInsert [p], lastStrD p ps)),
          lookupAssoc_mem _ _ _ hlk, ?_⟩
        rw [if_pos hmulti']
      · intro q
        rw [show (⟨n, sortStrings (ps.foldl distinctInsert [p]),
          lastStrD p ps⟩ : CollisionWarning).presets =
          sortStrings (ps.foldl distinctInsert [p]) from rfl]
        rw [mem_sortStrings, ← hdp, mem_distinctPresets, hcontrib]
      · have h1 := lastWithTrue_contrib n cs hall cl hlast
        rw [hcontrib, lastWithTrue_cons] at h1
        exact h1

/-- Witness for C5 at two presets providing the same command. -/
theorem presetCommandCollision_last_wins_witness :
    ((dedupeCommandsForInstall
      [⟨"run", "content-a", "/a", .presetSrc, some "./preset-a"⟩,
       ⟨"run", "content-b", "/b", .presetSrc, some "./preset-b"⟩]).filter
        (fun c => c.name = "run") =
      [⟨"run", "content-b", "/b", .presetSrc, some "./preset-b"⟩])
    ∧ (∃ w ∈ warnPresetCommandCollisions
        [⟨"run", "content-a", "/a", .presetSrc, some "./preset-a"⟩,
         ⟨"run", "content-b", "/b", .presetSrc, some "./preset-b"⟩],
        w.commandName = "run" ∧
        (∀ p, p ∈ w.presets ↔ p ∈ contribPresetList
          [⟨"run", "content-a", "/a", .presetSrc, some "./preset-a"⟩,
           ⟨"run", "content-b", "/b", .presetSrc, some "./preset-b"⟩] "run") ∧
        some w.chosen =
          (⟨"run", "content-b", "/b", .presetSrc,
            some "./preset-b"⟩ : CommandFile).presetName) :=
  presetCommandCollision_last_wins
    [⟨"run", "content-a", "/a", .presetSrc, some "./preset-a"⟩,
     ⟨"run", "content-b", "/b", .presetSrc, some "./preset-b"⟩]
    "run" ⟨"run", "content-b", "/b", .presetSrc, some "./preset-b"⟩
    (by decide) (by decide) (by decide)

end Aicm
